import Mathlib

/-!
# Verification of `spedextractor/gen_odoo.py`

A shallow embedding of the Odoo code generator of the sped-extractor
repository, together with theorems settling the frozen claims about it.

Python strings are modelled by `String`, python `int` by `Int`, dict keys
that may be absent by `Option`, and python exceptions (`int()` on a
non-numeric string, indexing an empty list) by `Option`-valued functions
returning `none`.  Dicts mutated in place are modelled by records indexed
by their position in the register list, with explicit state passing.
-/

/-! ## Python string primitives -/

/-- Python `str.strip()` on the underlying character list. -/
def trimChars (l : List Char) : List Char :=
  ((l.dropWhile Char.isWhitespace).reverse.dropWhile Char.isWhitespace).reverse

/-- Python `str.strip()`. -/
def pyStrip (s : String) : String :=
  String.mk (trimChars s.data)

/-- Python `s.startswith(p)`. -/
def pyStartsWith (s p : String) : Bool :=
  p.data.isPrefixOf s.data

/-- Python `s.endswith(p)`. -/
def pyEndsWith (s p : String) : Bool :=
  p.data.isSuffixOf s.data

/-- Substring test on character lists. -/
def isSubChars (pat : List Char) : List Char → Bool
  | [] => pat.isEmpty
  | c :: cs => pat.isPrefixOf (c :: cs) || isSubChars pat cs

/-- Python `p in s` (substring test). -/
def pyContains (s p : String) : Bool :=
  isSubChars p.data s.data

/-- Python slice `s[a:b]` for non-negative bounds. -/
def pySlice (s : String) (a b : Nat) : String :=
  String.mk ((s.data.drop a).take (b - a))

/-- Python slice `s[-n:]` (the last `n` characters; the whole string when
it is shorter than `n`). -/
def pyLastChars (s : String) (n : Nat) : String :=
  String.mk (s.data.drop (s.data.length - n))

/-- Python slice `s[0:m]` where `m` is a possibly negative int:
a negative upper bound counts from the end of the string. -/
def pySliceUpper (s : String) (m : Int) : String :=
  if m < 0 then String.mk (s.data.take (s.data.length - m.natAbs))
  else String.mk (s.data.take m.toNat)

/-- Python `s[0]` (the first character).  The python code only ever applies
it to non-empty register codes; on `""` python would raise, here we return
the default character. -/
def pyFirst (s : String) : Char :=
  s.data.headD default

/-- Python `str.lower()` restricted to ASCII, as used on register codes. -/
def pyLower (s : String) : String :=
  String.mk (s.data.map Char.toLower)

/-- Python `str.upper()` restricted to ASCII, as used on module names. -/
def pyUpper (s : String) : String :=
  String.mk (s.data.map Char.toUpper)

/-- Parse a non-empty list of decimal digits. -/
def digitsToNat : List Char → Option Nat
  | [] => none
  | l => go l 0
where
  go : List Char → Nat → Option Nat
    | [], acc => some acc
    | c :: cs, acc =>
      if c.isDigit then go cs (acc * 10 + (c.toNat - '0'.toNat)) else none

/-- Python `int(s)` on a string: optional surrounding whitespace, optional
sign, then decimal digits; anything else raises (`none`). -/
def pyInt? (s : String) : Option Int :=
  match trimChars s.data with
  | '-' :: rest => (digitsToNat rest).map (fun n => -(n : Int))
  | '+' :: rest => (digitsToNat rest).map (fun n => (n : Int))
  | l => (digitsToNat l).map (fun n => (n : Int))

/-- Python `s.replace(pat, rep)`: replace each non-overlapping occurrence
of `pat`, scanning left to right.  Every step consumes at least one
character, so the list's length serves as structural fuel. -/
def pyReplaceFuel (pat rep : List Char) : Nat → List Char → List Char
  | 0, l => l
  | _ + 1, [] => []
  | fuel + 1, c :: cs =>
    if pat ≠ [] ∧ pat.isPrefixOf (c :: cs) then
      rep ++ pyReplaceFuel pat rep fuel (cs.drop (pat.length - 1))
    else
      c :: pyReplaceFuel pat rep fuel cs

def pyReplaceChars (pat rep l : List Char) : List Char :=
  pyReplaceFuel pat rep l.length l

/-- Python `s.replace(pat, rep)`. -/
def pyReplace (s pat rep : String) : String :=
  String.mk (pyReplaceChars pat.data rep.data s.data)

/-- Python `s.split("_")`. -/
def splitUnderscore : List Char → List (List Char)
  | [] => [[]]
  | c :: cs =>
    if c = '_' then [] :: splitUnderscore cs
    else
      match splitUnderscore cs with
      | [] => [[c]]
      | g :: gs => (c :: g) :: gs

/-- Python lexicographic comparison `s < t` on strings (by code point). -/
def pyStrLt : List Char → List Char → Bool
  | [], [] => false
  | [], _ :: _ => true
  | _ :: _, [] => false
  | a :: as, b :: bs => if a < b then true else if b < a then false else pyStrLt as bs

/-- Python truthiness of an optional string (absent or empty is falsy). -/
def pyTruthy : Option String → Bool
  | none => false
  | some s => s ≠ ""

/-! ## Registers and `collect_register_children`

A register row, as produced by `get_registers`: only the keys the
generator reads.  `parent`, `o2m_parent` and the children lists are set by
`collect_register_children`; because the python code stores dict
references, they are modelled as positions in the register list. -/

structure Reg where
  code : String
  level : Int
  card : String
  desc : String := ""
  spec_required : Option String := none
deriving Repr, DecidableEq, Inhabited

/-- The mutable state attached to each register dict by
`collect_register_children`. -/
structure RegOut where
  reg : Reg
  parent : Option Nat := none
  o2m_parent : Option Nat := none
  children_m2o : Option (List Nat) := none
  children_o2m : Option (List Nat) := none
deriving Repr, DecidableEq, Inhabited

/-- `r["card"].strip() == "1:1" or r["card"].strip() == "1;1"`. -/
def isM2OCard (r : Reg) : Bool :=
  pyStrip r.card = "1:1" || pyStrip r.card = "1;1"

/-- Replace the element at position `n` (no-op out of range), modelling an
in-place update of the dict stored at that position. -/
def modifyIdx : List α → Nat → (α → α) → List α
  | [], _, _ => []
  | a :: t, 0, f => f a :: t
  | a :: t, n + 1, f => a :: modifyIdx t n f

/-- `r["parent"] = register_info` for the register at position `j`,
where `i` is the position of `register_info`. -/
def setParentAt (st : List RegOut) (j i : Nat) : List RegOut :=
  modifyIdx st j (fun d => { d with parent := some i })

/-- `r["o2m_parent"] = register_info`. -/
def setO2mAt (st : List RegOut) (j i : Nat) : List RegOut :=
  modifyIdx st j (fun d => { d with o2m_parent := some i })

/-- The inner `for r in registers` loop of `collect_register_children`,
for a fixed `register_info` (`info`, at position `i`): scans the
enumerated register list carrying the `collect_children` flag, appending
children positions to the `m2o`/`o2m` accumulators and recording
`parent`/`o2m_parent` on the children as the python code does. -/
def collectInner (info : Reg) (i : Nat) :
    List (Nat × Reg) → Bool → List RegOut → List Nat → List Nat →
    List RegOut × List Nat × List Nat
  | [], _, st, m2o, o2m => (st, m2o, o2m)
  | (j, r) :: rest, collecting, st, m2o, o2m =>
    if r.code = info.code then
      collectInner info i rest true st m2o o2m
    else if collecting then
      if r.level = info.level + 1 then
        if isM2OCard r then
          collectInner info i rest collecting (setParentAt st j i) (m2o ++ [j]) o2m
        else
          collectInner info i rest collecting
            (setParentAt (setO2mAt st j i) j i) m2o (o2m ++ [j])
      else if r.level ≤ info.level then
        (st, m2o, o2m)
      else
        collectInner info i rest collecting st m2o o2m
    else
      collectInner info i rest collecting st m2o o2m

/-- One iteration of the outer `for register_info in registers` loop:
when the register's level is `> 1`, run the inner scan and store the
collected children lists on the register. -/
def collectStep (regs : List Reg) (st : List RegOut) (p : Nat × Reg) : List RegOut :=
  if 1 < p.2.level then
    let res := collectInner p.2 p.1 (List.enumFrom 0 regs) false st [] []
    modifyIdx res.1 p.1
      (fun d => { d with children_o2m := some res.2.2, children_m2o := some res.2.1 })
  else st

/-- `collect_register_children(registers)`: read the registers hierarchy. -/
def collect_register_children (regs : List Reg) : List RegOut :=
  (List.enumFrom 0 regs).foldl (collectStep regs) (regs.map (fun r => { reg := r }))

/-! Specification-side characterisation of the children of the register at
position `i`: the registers that follow it in the list, before the next
register whose level is less than or equal to its own, and whose level
equals its level plus one. -/

def specChildren (regs : List Reg) (i : Nat) : List Nat :=
  ((((List.enumFrom 0 regs).drop (i + 1)).takeWhile
      (fun p => !(p.2.level ≤ (regs.getD i default).level))).filter
      (fun p => p.2.level = (regs.getD i default).level + 1)).map Prod.fst

/-- The entries the inner scan classifies as children once the flag is set:
everything of level `lvl + 1` up to the first entry of level `≤ lvl`. -/
def takeChildren (lvl : Int) : List (Nat × Reg) → List (Nat × Reg)
  | [] => []
  | (j, r) :: rest =>
    if r.level = lvl + 1 then (j, r) :: takeChildren lvl rest
    else if r.level ≤ lvl then []
    else takeChildren lvl rest

/-- The state writes the inner scan performs on the children it collects. -/
def applyWrites (i : Nat) (st : List RegOut) (cs : List (Nat × Reg)) : List RegOut :=
  cs.foldl
    (fun st p =>
      if isM2OCard p.2 then setParentAt st p.1 i
      else setParentAt (setO2mAt st p.1 i) p.1 i)
    st

/-! ### Lemmas about the basic operations -/

theorem modifyIdx_length (l : List α) (n : Nat) (f : α → α) :
    (modifyIdx l n f).length = l.length := by
  induction l generalizing n with
  | nil => rfl
  | cons a t ih =>
    cases n with
    | zero => rfl
    | succ n => simp [modifyIdx, ih]

theorem getD_modifyIdx_self {l : List α} {n : Nat} (h : n < l.length) (f : α → α) (d : α) :
    (modifyIdx l n f).getD n d = f (l.getD n d) := by
  induction l generalizing n with
  | nil => simp at h
  | cons a t ih =>
    cases n with
    | zero => rfl
    | succ n =>
      simp only [modifyIdx, List.getD_cons_succ]
      exact ih (by simpa using h)

theorem getD_modifyIdx_ne (l : List α) {m n : Nat} (h : m ≠ n) (f : α → α) (d : α) :
    (modifyIdx l n f).getD m d = l.getD m d := by
  induction l generalizing m n with
  | nil => rfl
  | cons a t ih =>
    cases n with
    | zero =>
      cases m with
      | zero => exact absurd rfl h
      | succ m => simp [modifyIdx]
    | succ n =>
      cases m with
      | zero => simp [modifyIdx]
      | succ m =>
        simp only [modifyIdx, List.getD_cons_succ]
        exact ih (show m ≠ n by omega)

theorem mem_enumFrom_eq (l : List α) (d : α) :
    ∀ (n : Nat), ∀ p ∈ List.enumFrom n l,
      n ≤ p.1 ∧ p.1 < n + l.length ∧ p.2 = l.getD (p.1 - n) d := by
  induction l with
  | nil => intro n p hp; simp [List.enumFrom] at hp
  | cons a t ih =>
    intro n p hp
    simp only [List.enumFrom, List.mem_cons] at hp
    rcases hp with rfl | hp
    · simp
    · obtain ⟨h1, h2, h3⟩ := ih (n + 1) p hp
      refine ⟨by omega, by simp only [List.length_cons]; omega, ?_⟩
      rw [h3]
      have : p.1 - n = (p.1 - (n + 1)) + 1 := by omega
      rw [this, List.getD_cons_succ]

theorem enumFrom_drop (l : List α) :
    ∀ (n k : Nat), (List.enumFrom n l).drop k = List.enumFrom (n + k) (l.drop k) := by
  induction l with
  | nil => intro n k; simp [List.enumFrom]
  | cons a t ih =>
    intro n k
    cases k with
    | zero => simp [List.enumFrom]
    | succ k =>
      simp only [List.enumFrom, List.drop_succ_cons]
      rw [ih (n + 1) k]
      congr 1
      omega

theorem enumFrom_take (l : List α) :
    ∀ (n k : Nat), (List.enumFrom n l).take k = List.enumFrom n (l.take k) := by
  induction l with
  | nil => intro n k; simp [List.enumFrom]
  | cons a t ih =>
    intro n k
    cases k with
    | zero => simp [List.enumFrom]
    | succ k => simp [List.enumFrom, ih]

theorem getD_drop (l : List α) :
    ∀ (n m : Nat) (d : α), (l.drop n).getD m d = l.getD (n + m) d := by
  induction l with
  | nil => intro n m d; simp
  | cons a t ih =>
    intro n m d
    cases n with
    | zero => simp
    | succ n =>
      simp only [List.drop_succ_cons]
      rw [ih n m d]
      have : n + 1 + m = (n + m) + 1 := by omega
      rw [this, List.getD_cons_succ]

theorem takeChildren_eq (lvl : Int) :
    ∀ l : List (Nat × Reg),
      takeChildren lvl l =
        (l.takeWhile (fun p => !(p.2.level ≤ lvl))).filter
          (fun p => p.2.level = lvl + 1) := by
  intro l
  induction l with
  | nil => rfl
  | cons p rest ih =>
    obtain ⟨j, r⟩ := p
    by_cases h1 : r.level = lvl + 1
    · have h2 : ¬ r.level ≤ lvl := by omega
      simp [takeChildren, List.takeWhile_cons, List.filter_cons, h1, h2, ih]
    · by_cases h2 : r.level ≤ lvl
      · simp [takeChildren, List.takeWhile_cons, h1, h2]
      · simp [takeChildren, List.takeWhile_cons, List.filter_cons, h1, h2, ih]

theorem takeChildren_sublist (lvl : Int) :
    ∀ l : List (Nat × Reg), List.Sublist (takeChildren lvl l) l := by
  intro l
  induction l with
  | nil => simp [takeChildren]
  | cons p rest ih =>
    obtain ⟨j, r⟩ := p
    by_cases h1 : r.level = lvl + 1
    · simpa [takeChildren, h1] using ih.cons₂ (j, r)
    · by_cases h2 : r.level ≤ lvl
      · simp [takeChildren, h1, h2]
      · simpa [takeChildren, h1, h2] using ih.cons _

/-! ### The inner scan -/

theorem collectInner_collecting (info : Reg) (i : Nat) :
    ∀ (l : List (Nat × Reg)) (st : List RegOut) (m2o o2m : List Nat),
      (∀ p ∈ l, p.2.code ≠ info.code) →
      collectInner info i l true st m2o o2m =
        (applyWrites i st (takeChildren info.level l),
         m2o ++ ((takeChildren info.level l).filter (fun p => isM2OCard p.2)).map Prod.fst,
         o2m ++ ((takeChildren info.level l).filter (fun p => !isM2OCard p.2)).map Prod.fst) := by
  intro l
  induction l with
  | nil => intro st m2o o2m _; simp [collectInner, takeChildren, applyWrites]
  | cons p rest ih =>
    intro st m2o o2m hcodes
    obtain ⟨j, r⟩ := p
    have hcode : r.code ≠ info.code := hcodes (j, r) (List.mem_cons_self _ _)
    have hrest : ∀ q ∈ rest, q.2.code ≠ info.code :=
      fun q hq => hcodes q (List.mem_cons_of_mem _ hq)
    by_cases h1 : r.level = info.level + 1
    · by_cases hcard : isM2OCard r
      · simp only [collectInner, if_neg hcode, if_pos rfl, if_pos h1, if_pos hcard,
          takeChildren, applyWrites, List.foldl_cons, List.filter_cons, hcard,
          Bool.not_true, ite_true, ite_false, List.map_cons]
        rw [ih _ _ _ hrest]
        simp [applyWrites, List.append_assoc]
      · simp only [collectInner, if_neg hcode, if_pos rfl, if_pos h1, if_neg hcard,
          takeChildren, applyWrites, List.foldl_cons, List.filter_cons,
          Bool.not_eq_true' , List.map_cons]
        rw [ih _ _ _ hrest]
        simp only [applyWrites, if_neg hcard]
        have hb : isM2OCard r = false := by
          simpa using hcard
        simp [hb, List.append_assoc]
    · by_cases h2 : r.level ≤ info.level
      · simp [collectInner, if_neg hcode, h1, h2, takeChildren, applyWrites]
      · simp only [collectInner, if_neg hcode, if_pos rfl, if_neg h1, if_neg h2, takeChildren]
        exact ih _ _ _ hrest

theorem collectInner_pre (info : Reg) (i : Nat) :
    ∀ (l₁ : List (Nat × Reg)) (l₂ : List (Nat × Reg)) (st : List RegOut),
      (∀ p ∈ l₁, p.2.code ≠ info.code) →
      collectInner info i (l₁ ++ (i, info) :: l₂) false st [] [] =
        collectInner info i l₂ true st [] [] := by
  intro l₁
  induction l₁ with
  | nil => intro l₂ st _; simp [collectInner]
  | cons p rest ih =>
    intro l₂ st hcodes
    obtain ⟨j, r⟩ := p
    have hcode : r.code ≠ info.code := hcodes (j, r) (List.mem_cons_self _ _)
    simp only [List.cons_append, collectInner, if_neg hcode, Bool.false_eq_true, ite_false]
    exact ih l₂ st (fun q hq => hcodes q (List.mem_cons_of_mem _ hq))

/-! ### The effect of the collected writes on the state -/

theorem applyWrites_length (i : Nat) :
    ∀ (cs : List (Nat × Reg)) (st : List RegOut),
      (applyWrites i st cs).length = st.length := by
  intro cs
  induction cs with
  | nil => intro st; rfl
  | cons p cs ih =>
    intro st
    simp only [applyWrites, List.foldl_cons]
    by_cases hcard : isM2OCard p.2
    · rw [if_pos hcard]
      rw [show List.foldl _ (setParentAt st p.1 i) cs = applyWrites i (setParentAt st p.1 i) cs from rfl,
        ih, setParentAt, modifyIdx_length]
    · rw [if_neg hcard]
      rw [show List.foldl _ (setParentAt (setO2mAt st p.1 i) p.1 i) cs =
            applyWrites i (setParentAt (setO2mAt st p.1 i) p.1 i) cs from rfl,
        ih, setParentAt, setO2mAt, modifyIdx_length, modifyIdx_length]

theorem getD_applyWrites_notmem (i : Nat) :
    ∀ (cs : List (Nat × Reg)) (st : List RegOut) (j : Nat),
      j ∉ cs.map Prod.fst →
      (applyWrites i st cs).getD j default = st.getD j default := by
  intro cs
  induction cs with
  | nil => intro st j _; rfl
  | cons p cs ih =>
    intro st j hj
    have hpj : p.1 ≠ j := fun h => hj (by simp [h.symm])
    have hj' : j ∉ cs.map Prod.fst := fun h => hj (by simp [h])
    simp only [applyWrites, List.foldl_cons]
    by_cases hcard : isM2OCard p.2
    · rw [if_pos hcard]
      rw [show List.foldl _ (setParentAt st p.1 i) cs = applyWrites i (setParentAt st p.1 i) cs from rfl,
        ih _ _ hj', setParentAt, getD_modifyIdx_ne _ (Ne.symm hpj)]
    · rw [if_neg hcard]
      rw [show List.foldl _ (setParentAt (setO2mAt st p.1 i) p.1 i) cs =
            applyWrites i (setParentAt (setO2mAt st p.1 i) p.1 i) cs from rfl,
        ih _ _ hj', setParentAt, setO2mAt,
        getD_modifyIdx_ne _ (Ne.symm hpj), getD_modifyIdx_ne _ (Ne.symm hpj)]

theorem getD_applyWrites_mem (i : Nat) :
    ∀ (cs : List (Nat × Reg)) (st : List RegOut) (j : Nat) (r : Reg),
      (cs.map Prod.fst).Nodup → (∀ p ∈ cs, p.1 < st.length) →
      (j, r) ∈ cs →
      (applyWrites i st cs).getD j default =
        (if isM2OCard r then { st.getD j default with parent := some i }
         else { st.getD j default with parent := some i, o2m_parent := some i }) := by
  intro cs
  induction cs with
  | nil => intro st j r _ _ h; simp at h
  | cons p cs ih =>
    intro st j r hnodup hbound hmem
    simp only [List.map_cons, List.nodup_cons] at hnodup
    rcases List.mem_cons.mp hmem with heq | htail
    · subst heq
      have hjlen : j < st.length := hbound (j, r) (List.mem_cons_self _ _)
      have hnot : j ∉ cs.map Prod.fst := hnodup.1
      simp only [applyWrites, List.foldl_cons]
      by_cases hcard : isM2OCard r
      · rw [if_pos hcard, if_pos hcard]
        rw [show List.foldl _ (setParentAt st j i) cs = applyWrites i (setParentAt st j i) cs from rfl,
          getD_applyWrites_notmem i cs _ j hnot, setParentAt,
          getD_modifyIdx_self hjlen]
      · rw [if_neg hcard, if_neg hcard]
        rw [show List.foldl _ (setParentAt (setO2mAt st j i) j i) cs =
              applyWrites i (setParentAt (setO2mAt st j i) j i) cs from rfl,
          getD_applyWrites_notmem i cs _ j hnot, setParentAt, setO2mAt,
          getD_modifyIdx_self (by rw [modifyIdx_length]; exact hjlen),
          getD_modifyIdx_self hjlen]
    · have hpj : p.1 ≠ j := by
        intro h
        exact hnodup.1 (h ▸ List.mem_map_of_mem Prod.fst htail)
      simp only [applyWrites, List.foldl_cons]
      by_cases hcard : isM2OCard p.2
      · rw [if_pos hcard]
        rw [show List.foldl _ (setParentAt st p.1 i) cs = applyWrites i (setParentAt st p.1 i) cs from rfl,
          ih _ j r hnodup.2 (fun q hq => by rw [setParentAt, modifyIdx_length]; exact hbound q (List.mem_cons_of_mem _ hq)) htail,
          setParentAt, getD_modifyIdx_ne _ (Ne.symm hpj)]
      · rw [if_neg hcard]
        rw [show List.foldl _ (setParentAt (setO2mAt st p.1 i) p.1 i) cs =
              applyWrites i (setParentAt (setO2mAt st p.1 i) p.1 i) cs from rfl,
          ih _ j r hnodup.2 (fun q hq => by
            rw [setParentAt, setO2mAt, modifyIdx_length, modifyIdx_length]
            exact hbound q (List.mem_cons_of_mem _ hq)) htail,
          setParentAt, setO2mAt,
          getD_modifyIdx_ne _ (Ne.symm hpj), getD_modifyIdx_ne _ (Ne.symm hpj)]

/-! ### Characterising membership in `specChildren` -/

theorem mem_specChildren_aux (lvl : Int) (d : Reg) :
    ∀ (l : List Reg) (n j : Nat),
      (j ∈ (((List.enumFrom n l).takeWhile (fun p => !(p.2.level ≤ lvl))).filter
          (fun p => p.2.level = lvl + 1)).map Prod.fst) ↔
      (n ≤ j ∧ j < n + l.length ∧ (l.getD (j - n) d).level = lvl + 1 ∧
        ∀ k, n ≤ k → k < j → lvl < (l.getD (k - n) d).level) := by
  intro l
  induction l with
  | nil =>
    intro n j
    simp only [List.enumFrom, List.takeWhile_nil, List.filter_nil, List.map_nil,
      List.not_mem_nil, List.length_nil, false_iff]
    omega
  | cons a t ih =>
    intro n j
    simp only [List.enumFrom]
    by_cases ha : a.level ≤ lvl
    · have hcond : (!decide (a.level ≤ lvl)) = false := by simp [ha]
      simp only [List.takeWhile_cons, hcond, Bool.false_eq_true, if_false,
        List.filter_nil, List.map_nil, List.not_mem_nil, false_iff]
      intro ⟨h1, h2, h3, h4⟩
      rcases Nat.eq_or_lt_of_le h1 with rfl | hlt
      · simp at h3; omega
      · have := h4 n (le_refl n) hlt
        simp at this; omega
    · have hcond : (!decide (a.level ≤ lvl)) = true := by simp [ha]
      simp only [List.takeWhile_cons, hcond, if_true]
      by_cases hb : a.level = lvl + 1
      · rw [List.filter_cons_of_pos (by simpa using hb), List.map_cons]
        simp only [List.mem_cons]
        constructor
        · rintro (rfl | hmem)
          · refine ⟨le_refl j, by simp only [List.length_cons]; omega, by simp [hb], ?_⟩
            intro k _ hk; omega
          · obtain ⟨h1, h2, h3, h4⟩ := (ih (n + 1) j).mp hmem
            refine ⟨by omega, by simp only [List.length_cons]; omega, ?_, ?_⟩
            · have : j - n = (j - (n + 1)) + 1 := by omega
              rw [this, List.getD_cons_succ]; exact h3
            · intro k hk1 hk2
              rcases Nat.eq_or_lt_of_le hk1 with rfl | hk1'
              · simp only [Nat.sub_self, List.getD_cons_zero]; omega
              · have : k - n = (k - (n + 1)) + 1 := by omega
                rw [this, List.getD_cons_succ]
                exact h4 k hk1' hk2
        · rintro ⟨h1, h2, h3, h4⟩
          rcases Nat.eq_or_lt_of_le h1 with rfl | hlt
          · exact Or.inl rfl
          · refine Or.inr ((ih (n + 1) j).mpr ⟨hlt, by simp only [List.length_cons] at h2; omega, ?_, ?_⟩)
            · have : j - n = (j - (n + 1)) + 1 := by omega
              rw [this, List.getD_cons_succ] at h3; exact h3
            · intro k hk1 hk2
              have hkn : n ≤ k := by omega
              have := h4 k hkn hk2
              have heq : k - n = (k - (n + 1)) + 1 := by omega
              rw [heq, List.getD_cons_succ] at this; exact this
      · rw [List.filter_cons_of_neg (by simpa using hb)]
        rw [ih (n + 1) j]
        constructor
        · rintro ⟨h1, h2, h3, h4⟩
          refine ⟨by omega, by simp only [List.length_cons]; omega, ?_, ?_⟩
          · have : j - n = (j - (n + 1)) + 1 := by omega
            rw [this, List.getD_cons_succ]; exact h3
          · intro k hk1 hk2
            rcases Nat.eq_or_lt_of_le hk1 with rfl | hk1'
            · simp only [Nat.sub_self, List.getD_cons_zero]; omega
            · have : k - n = (k - (n + 1)) + 1 := by omega
              rw [this, List.getD_cons_succ]
              exact h4 k hk1' hk2
        · rintro ⟨h1, h2, h3, h4⟩
          have hjn : j ≠ n := by
            intro h
            rw [h, Nat.sub_self, List.getD_cons_zero] at h3
            exact hb h3
          refine ⟨by omega, by simp only [List.length_cons] at h2; omega, ?_, ?_⟩
          · have : j - n = (j - (n + 1)) + 1 := by omega
            rw [this, List.getD_cons_succ] at h3; exact h3
          · intro k hk1 hk2
            have := h4 k (by omega) hk2
            have heq : k - n = (k - (n + 1)) + 1 := by omega
            rw [heq, List.getD_cons_succ] at this; exact this

theorem mem_specChildren_iff (regs : List Reg) (i j : Nat) (hi : i < regs.length) :
    j ∈ specChildren regs i ↔
      (i < j ∧ j < regs.length ∧
       (regs.getD j default).level = (regs.getD i default).level + 1 ∧
       ∀ k, i < k → k < j → (regs.getD i default).level < (regs.getD k default).level) := by
  unfold specChildren
  rw [enumFrom_drop, Nat.zero_add]
  rw [mem_specChildren_aux ((regs.getD i default).level) default (regs.drop (i + 1)) (i + 1) j]
  have hlen : (regs.drop (i + 1)).length = regs.length - (i + 1) := by simp
  constructor
  · rintro ⟨h1, h2, h3, h4⟩
    rw [hlen] at h2
    refine ⟨by omega, by omega, ?_, ?_⟩
    · rw [getD_drop] at h3
      have : i + 1 + (j - (i + 1)) = j := by omega
      rwa [this] at h3
    · intro k hk1 hk2
      have := h4 k (by omega) hk2
      rw [getD_drop] at this
      have heq : i + 1 + (k - (i + 1)) = k := by omega
      rwa [heq] at this
  · rintro ⟨h1, h2, h3, h4⟩
    refine ⟨by omega, by rw [hlen]; omega, ?_, ?_⟩
    · rw [getD_drop]
      have : i + 1 + (j - (i + 1)) = j := by omega
      rwa [this]
    · intro k hk1 hk2
      rw [getD_drop]
      have heq : i + 1 + (k - (i + 1)) = k := by omega
      rw [heq]
      exact h4 k (by omega) hk2

theorem specChildren_unique (regs : List Reg) {i i' j : Nat}
    (hi : i < regs.length) (hi' : i' < regs.length)
    (h1 : j ∈ specChildren regs i) (h2 : j ∈ specChildren regs i') : i = i' := by
  rw [mem_specChildren_iff regs i j hi] at h1
  rw [mem_specChildren_iff regs i' j hi'] at h2
  obtain ⟨hij, _, hlj, hall⟩ := h1
  obtain ⟨hij', _, hlj', hall'⟩ := h2
  by_contra hne
  rcases Nat.lt_or_ge i i' with hlt | hge
  · have := hall i' hlt hij'
    omega
  · have hlt' : i' < i := by omega
    have := hall' i hlt' hij
    omega

theorem specChildren_lt_length (regs : List Reg) {i j : Nat}
    (hi : i < regs.length) (hj : j ∈ specChildren regs i) : j < regs.length :=
  ((mem_specChildren_iff regs i j hi).mp hj).2.1

/-! ### The outer loop invariant -/

theorem enumFrom_pairwise_fst (l : List α) :
    ∀ n, (List.enumFrom n l).Pairwise (fun p q => p.1 < q.1) := by
  induction l with
  | nil => intro n; simp [List.enumFrom]
  | cons a t ih =>
    intro n
    simp only [List.enumFrom]
    refine List.Pairwise.cons ?_ (ih (n + 1))
    intro q hq
    have := (mem_enumFrom_eq t a (n + 1) q hq).1
    omega

theorem map_fst_filter (regs : List Reg) (q : Reg → Bool) :
    ∀ cs : List (Nat × Reg), (∀ p ∈ cs, p.2 = regs.getD p.1 default) →
      (cs.filter (fun p => q p.2)).map Prod.fst =
        (cs.map Prod.fst).filter (fun c => q (regs.getD c default)) := by
  intro cs
  induction cs with
  | nil => intro _; rfl
  | cons p cs ih =>
    intro hc
    have hp : p.2 = regs.getD p.1 default := hc p (List.mem_cons_self _ _)
    have hrest := fun r hr => hc r (List.mem_cons_of_mem _ hr)
    by_cases hq : q p.2
    · simp only [List.filter_cons, List.map_cons, ← hp, hq, if_true, ih hrest]
    · have hq' : q p.2 = false := by simpa using hq
      simp only [List.filter_cons, List.map_cons, ← hp, hq', Bool.false_eq_true, if_false, ih hrest]

/-- The position (if any) among the first `m` registers whose inner scan
has recorded itself as parent of the register at position `j`. -/
def writerIn (regs : List Reg) (m j : Nat) : Option Nat :=
  (List.range m).find?
    (fun i => decide (1 < (regs.getD i default).level) && decide (j ∈ specChildren regs i))

/-- The expected final `o2m_parent` value given the recorded parent. -/
def o2mOf (regs : List Reg) (w : Option Nat) (j : Nat) : Option Nat :=
  match w with
  | none => none
  | some i => if isM2OCard (regs.getD j default) then none else some i

def childrenM2OAt (regs : List Reg) (m j : Nat) : Option (List Nat) :=
  if j < m ∧ 1 < (regs.getD j default).level
  then some ((specChildren regs j).filter (fun c => isM2OCard (regs.getD c default)))
  else none

def childrenO2MAt (regs : List Reg) (m j : Nat) : Option (List Nat) :=
  if j < m ∧ 1 < (regs.getD j default).level
  then some ((specChildren regs j).filter (fun c => !isM2OCard (regs.getD c default)))
  else none

/-- The state of the register dicts after the outer loop has processed the
first `m` registers. -/
def stateAt (regs : List Reg) (m : Nat) : List RegOut :=
  ((List.enumFrom 0 regs).take m).foldl (collectStep regs) (regs.map (fun r => { reg := r }))

theorem collectInner_fst_length (info : Reg) (i : Nat) :
    ∀ (l : List (Nat × Reg)) (b : Bool) (st : List RegOut) (m2o o2m : List Nat),
      ((collectInner info i l b st m2o o2m).1).length = st.length := by
  intro l
  induction l with
  | nil => intro b st m2o o2m; rfl
  | cons p rest ih =>
    intro b st m2o o2m
    obtain ⟨j, r⟩ := p
    simp only [collectInner]
    split_ifs
    all_goals
      first
        | rfl
        | (rw [ih]; simp [setParentAt, setO2mAt, modifyIdx_length])
        | exact ih _ _ _ _

theorem collectStep_length (regs : List Reg) (st : List RegOut) (p : Nat × Reg) :
    (collectStep regs st p).length = st.length := by
  unfold collectStep
  by_cases h : 1 < p.2.level
  · rw [if_pos h, modifyIdx_length, collectInner_fst_length]
  · rw [if_neg h]

theorem stateAt_length (regs : List Reg) (m : Nat) :
    (stateAt regs m).length = regs.length := by
  unfold stateAt
  generalize (List.enumFrom 0 regs).take m = l
  induction l generalizing m with
  | nil => simp
  | cons p t ih =>
    rw [List.foldl_cons]
    have : ∀ (init : List RegOut), init.length = regs.length →
        (t.foldl (collectStep regs) init).length = regs.length := by
      clear ih
      induction t with
      | nil => intro init h; simpa using h
      | cons q u ihu =>
        intro init h
        rw [List.foldl_cons]
        exact ihu _ (by rw [collectStep_length]; exact h)
    exact this _ (by rw [collectStep_length]; simp)

theorem stateAt_succ (regs : List Reg) {m : Nat} (hm : m < regs.length) :
    stateAt regs (m + 1) = collectStep regs (stateAt regs m) (m, regs.getD m default) := by
  unfold stateAt
  rw [List.take_succ]
  have h1 : (List.enumFrom 0 regs)[m]? = some (m, regs.getD m default) := by
    rw [List.getElem?_enumFrom, List.getElem?_eq_getElem hm,
      List.getD_eq_getElem regs default hm]
    simp
  rw [h1]
  simp [List.foldl_append]

theorem childrenM2OAt_succ_ne (regs : List Reg) {m j : Nat} (hne : j ≠ m) :
    childrenM2OAt regs (m + 1) j = childrenM2OAt regs m j := by
  unfold childrenM2OAt
  by_cases hc : j < m ∧ 1 < (regs.getD j default).level
  · rw [if_pos hc, if_pos ⟨by omega, hc.2⟩]
  · rw [if_neg hc, if_neg (fun h => hc ⟨by omega, h.2⟩)]

theorem childrenO2MAt_succ_ne (regs : List Reg) {m j : Nat} (hne : j ≠ m) :
    childrenO2MAt regs (m + 1) j = childrenO2MAt regs m j := by
  unfold childrenO2MAt
  by_cases hc : j < m ∧ 1 < (regs.getD j default).level
  · rw [if_pos hc, if_pos ⟨by omega, hc.2⟩]
  · rw [if_neg hc, if_neg (fun h => hc ⟨by omega, h.2⟩)]

theorem childrenM2OAt_succ_self (regs : List Reg) {m : Nat}
    (hlev : ¬ 1 < (regs.getD m default).level) :
    childrenM2OAt regs (m + 1) m = childrenM2OAt regs m m := by
  unfold childrenM2OAt
  rw [if_neg (fun h => hlev h.2), if_neg (fun h => by omega)]

theorem childrenO2MAt_succ_self (regs : List Reg) {m : Nat}
    (hlev : ¬ 1 < (regs.getD m default).level) :
    childrenO2MAt regs (m + 1) m = childrenO2MAt regs m m := by
  unfold childrenO2MAt
  rw [if_neg (fun h => hlev h.2), if_neg (fun h => by omega)]

theorem writerIn_succ_skip (regs : List Reg) {m j : Nat}
    (h : (decide (1 < (regs.getD m default).level) &&
          decide (j ∈ specChildren regs m)) = false) :
    writerIn regs (m + 1) j = writerIn regs m j := by
  unfold writerIn
  rw [List.range_succ, List.find?_append]
  cases hfind : (List.range m).find?
      (fun i => decide (1 < (regs.getD i default).level) &&
        decide (j ∈ specChildren regs i)) with
  | some a => simp [Option.or]
  | none =>
    rw [Option.none_or]
    rw [List.find?_cons, h]
    rfl

theorem find?_unique {α : Type _} (p : α → Bool) (a : α) :
    ∀ l : List α, a ∈ l → p a = true → (∀ b ∈ l, p b = true → b = a) →
      l.find? p = some a := by
  intro l
  induction l with
  | nil => intro h; simp at h
  | cons x t ih =>
    intro hmem hpa huniq
    by_cases hx : p x
    · have : x = a := huniq x (List.mem_cons_self _ _) hx
      subst this
      simp [List.find?_cons, hx]
    · have hx' : p x = false := by simpa using hx
      rw [List.find?_cons, hx']
      have hat : a ∈ t := by
        rcases List.mem_cons.mp hmem with rfl | h
        · rw [hpa] at hx'; cases hx'
        · exact h
      exact ih hat hpa (fun b hb => huniq b (List.mem_cons_of_mem _ hb))

theorem writerIn_of_mem (regs : List Reg) {m j i : Nat}
    (hi : i < regs.length) (him : i < m) (hm : m ≤ regs.length)
    (hlev : 1 < (regs.getD i default).level) (hj : j ∈ specChildren regs i) :
    writerIn regs m j = some i := by
  unfold writerIn
  apply find?_unique
  · exact List.mem_range.mpr him
  · rw [decide_eq_true hlev, decide_eq_true hj]; rfl
  · intro b hb hpb
    have hb' : b < m := List.mem_range.mp hb
    rw [Bool.and_eq_true, decide_eq_true_iff, decide_eq_true_iff] at hpb
    exact specChildren_unique regs (by omega) hi hpb.2 hj

theorem writerIn_none_lt (regs : List Reg) {m j i : Nat}
    (hi : i < regs.length) (hm : m ≤ i)
    (hj : j ∈ specChildren regs i) :
    writerIn regs m j = none := by
  unfold writerIn
  rw [List.find?_eq_none]
  intro b hb hpb
  have hb' : b < m := List.mem_range.mp hb
  rw [Bool.and_eq_true, decide_eq_true_iff, decide_eq_true_iff] at hpb
  have := specChildren_unique regs (by omega) hi hpb.2 hj
  omega

/-- The full invariant of the outer loop of `collect_register_children`:
after `m` iterations, parents and `o2m_parent`s record the unique writer
among the first `m` registers, and the children lists are exactly the
partitioned `specChildren` for processed registers of level `> 1`. -/
theorem stateAt_inv (regs : List Reg)
    (hcodes : regs.Pairwise (fun a b => a.code ≠ b.code)) :
    ∀ m, m ≤ regs.length → ∀ j, j < regs.length →
      ((stateAt regs m).getD j default).reg = regs.getD j default ∧
      ((stateAt regs m).getD j default).parent = writerIn regs m j ∧
      ((stateAt regs m).getD j default).o2m_parent = o2mOf regs (writerIn regs m j) j ∧
      ((stateAt regs m).getD j default).children_m2o = childrenM2OAt regs m j ∧
      ((stateAt regs m).getD j default).children_o2m = childrenO2MAt regs m j := by
  intro m
  induction m with
  | zero =>
    intro _ j hj
    have hmap : (stateAt regs 0).getD j default = { reg := regs.getD j default } := by
      show ((regs.map (fun r => ({ reg := r } : RegOut))).getD j default) = _
      rw [List.getD_eq_getElem _ _ (by simpa using hj), List.getElem_map,
        List.getD_eq_getElem regs default hj]
    rw [hmap]
    exact ⟨rfl, rfl, rfl, by simp [childrenM2OAt], by simp [childrenO2MAt]⟩
  | succ m ih =>
    intro hm1 j hj
    have hm : m < regs.length := by omega
    have ihj := ih (by omega) j hj
    rw [stateAt_succ regs hm]
    by_cases hlev : 1 < (regs.getD m default).level
    case neg =>
      have hstep : collectStep regs (stateAt regs m) (m, regs.getD m default) =
          stateAt regs m := by
        unfold collectStep
        rw [if_neg hlev]
      rw [hstep]
      have hw : writerIn regs (m + 1) j = writerIn regs m j :=
        writerIn_succ_skip regs (by rw [decide_eq_false hlev, Bool.false_and])
      refine ⟨ihj.1, by rw [hw]; exact ihj.2.1, by rw [hw]; exact ihj.2.2.1, ?_, ?_⟩
      · by_cases hne : j = m
        · subst hne; rw [childrenM2OAt_succ_self regs hlev]; exact ihj.2.2.2.1
        · rw [childrenM2OAt_succ_ne regs hne]; exact ihj.2.2.2.1
      · by_cases hne : j = m
        · subst hne; rw [childrenO2MAt_succ_self regs hlev]; exact ihj.2.2.2.2
        · rw [childrenO2MAt_succ_ne regs hne]; exact ihj.2.2.2.2
    case pos =>
      -- split the enumerated register list around position m
      have hsplit : List.enumFrom 0 regs =
          (List.enumFrom 0 regs).take m ++
            (m, regs.getD m default) :: (List.enumFrom 0 regs).drop (m + 1) := by
        conv_lhs => rw [← List.take_append_drop m (List.enumFrom 0 regs)]
        congr 1
        rw [enumFrom_drop, enumFrom_drop, Nat.zero_add, Nat.zero_add]
        have hdrop : regs.drop m = regs.getD m default :: regs.drop (m + 1) := by
          rw [List.getD_eq_getElem regs default hm]
          exact List.drop_eq_getElem_cons hm
        rw [hdrop]
        rfl
      have hpairget := List.pairwise_iff_getElem.mp hcodes
      have hpre : ∀ p ∈ (List.enumFrom 0 regs).take m,
          p.2.code ≠ (regs.getD m default).code := by
        intro p hp
        have hpfull : p ∈ List.enumFrom 0 regs := List.mem_of_mem_take hp
        obtain ⟨_, hplt, hpeq⟩ := mem_enumFrom_eq regs default 0 p hpfull
        have hplt' : p.1 < m := by
          rw [enumFrom_take] at hp
          obtain ⟨_, hlt2, _⟩ := mem_enumFrom_eq (regs.take m) default 0 p hp
          have : (regs.take m).length ≤ m := by simp
          omega
        have hcode := hpairget p.1 m (by omega) hm hplt'
        rw [hpeq, Nat.sub_zero, List.getD_eq_getElem regs default (by omega),
          List.getD_eq_getElem regs default hm]
        exact hcode
      have hpost : ∀ p ∈ (List.enumFrom 0 regs).drop (m + 1),
          p.2.code ≠ (regs.getD m default).code := by
        intro p hp
        have hpfull : p ∈ List.enumFrom 0 regs := List.mem_of_mem_drop hp
        obtain ⟨_, hplt, hpeq⟩ := mem_enumFrom_eq regs default 0 p hpfull
        have hpge : m + 1 ≤ p.1 := by
          rw [enumFrom_drop, Nat.zero_add] at hp
          exact (mem_enumFrom_eq (regs.drop (m + 1)) default (m + 1) p hp).1
        have hcode := hpairget m p.1 hm (by omega) (by omega)
        rw [hpeq, Nat.sub_zero, List.getD_eq_getElem regs default (by omega),
          List.getD_eq_getElem regs default hm]
        exact fun h => hcode h.symm
      -- compute the effect of the step
      have hinner : collectInner (regs.getD m default) m (List.enumFrom 0 regs) false
          (stateAt regs m) [] [] =
          (applyWrites m (stateAt regs m)
            (takeChildren (regs.getD m default).level ((List.enumFrom 0 regs).drop (m + 1))),
           ((takeChildren (regs.getD m default).level
              ((List.enumFrom 0 regs).drop (m + 1))).filter
                (fun p => isM2OCard p.2)).map Prod.fst,
           ((takeChildren (regs.getD m default).level
              ((List.enumFrom 0 regs).drop (m + 1))).filter
                (fun p => !isM2OCard p.2)).map Prod.fst) := by
        conv_lhs => rw [hsplit]
        rw [collectInner_pre (regs.getD m default) m _ _ _ hpre,
          collectInner_collecting (regs.getD m default) m _ _ _ _ hpost]
        simp
      have hstep : collectStep regs (stateAt regs m) (m, regs.getD m default) =
          modifyIdx
            (applyWrites m (stateAt regs m)
              (takeChildren (regs.getD m default).level ((List.enumFrom 0 regs).drop (m + 1))))
            m
            (fun d =>
              { d with
                children_o2m := some (((takeChildren (regs.getD m default).level
                  ((List.enumFrom 0 regs).drop (m + 1))).filter
                    (fun p => !isM2OCard p.2)).map Prod.fst),
                children_m2o := some (((takeChildren (regs.getD m default).level
                  ((List.enumFrom 0 regs).drop (m + 1))).filter
                    (fun p => isM2OCard p.2)).map Prod.fst) }) := by
        unfold collectStep
        rw [if_pos hlev, hinner]
      rw [hstep]
      -- facts about the collected children entries
      have hspec : specChildren regs m =
          (takeChildren (regs.getD m default).level
            ((List.enumFrom 0 regs).drop (m + 1))).map Prod.fst := by
        unfold specChildren
        rw [takeChildren_eq]
      have hcs_enum : ∀ p ∈ takeChildren (regs.getD m default).level
          ((List.enumFrom 0 regs).drop (m + 1)), p ∈ List.enumFrom 0 regs :=
        fun p hp => List.mem_of_mem_drop ((takeChildren_sublist _ _).subset hp)
      have hconsist : ∀ p ∈ takeChildren (regs.getD m default).level
          ((List.enumFrom 0 regs).drop (m + 1)), p.2 = regs.getD p.1 default := by
        intro p hp
        have := (mem_enumFrom_eq regs default 0 p (hcs_enum p hp)).2.2
        simpa using this
      have hbounds : ∀ p ∈ takeChildren (regs.getD m default).level
          ((List.enumFrom 0 regs).drop (m + 1)), p.1 < regs.length := by
        intro p hp
        have := (mem_enumFrom_eq regs default 0 p (hcs_enum p hp)).2.1
        omega
      have hge : ∀ p ∈ takeChildren (regs.getD m default).level
          ((List.enumFrom 0 regs).drop (m + 1)), m < p.1 := by
        intro p hp
        have hp' : p ∈ (List.enumFrom 0 regs).drop (m + 1) :=
          (takeChildren_sublist _ _).subset hp
        rw [enumFrom_drop, Nat.zero_add] at hp'
        have := (mem_enumFrom_eq (regs.drop (m + 1)) default (m + 1) p hp').1
        omega
      have hnodup : ((takeChildren (regs.getD m default).level
          ((List.enumFrom 0 regs).drop (m + 1))).map Prod.fst).Nodup := by
        have hpw : ((List.enumFrom 0 regs).drop (m + 1)).Pairwise
            (fun p q : Nat × Reg => p.1 < q.1) :=
          (enumFrom_pairwise_fst regs 0).sublist (List.drop_sublist _ _)
        have hpw2 := hpw.sublist
          (takeChildren_sublist (regs.getD m default).level
            ((List.enumFrom 0 regs).drop (m + 1)))
        exact (hpw2.map Prod.fst (fun a b h => h)).imp Nat.ne_of_lt
      -- now prove the five fields
      by_cases hjm : j = m
      · subst hjm
        have hjlen : j < (applyWrites j (stateAt regs j)
            (takeChildren (regs.getD j default).level
              ((List.enumFrom 0 regs).drop (j + 1)))).length := by
          rw [applyWrites_length, stateAt_length]; exact hj
        rw [getD_modifyIdx_self hjlen]
        have hnotmem : j ∉ (takeChildren (regs.getD j default).level
            ((List.enumFrom 0 regs).drop (j + 1))).map Prod.fst := by
          intro hmem
          obtain ⟨p, hp, hp1⟩ := List.mem_map.mp hmem
          have := hge p hp
          omega
        rw [getD_applyWrites_notmem j _ _ j hnotmem]
        have hjnotspec : j ∉ specChildren regs j := by
          rw [hspec]; exact hnotmem
        have hw : writerIn regs (j + 1) j = writerIn regs j j :=
          writerIn_succ_skip regs (by rw [decide_eq_false hjnotspec, Bool.and_false])
        refine ⟨ihj.1, by rw [hw]; exact ihj.2.1, by rw [hw]; exact ihj.2.2.1, ?_, ?_⟩
        · show some _ = childrenM2OAt regs (j + 1) j
          unfold childrenM2OAt
          rw [if_pos ⟨by omega, hlev⟩, hspec,
            map_fst_filter regs isM2OCard _ hconsist]
        · show some _ = childrenO2MAt regs (j + 1) j
          unfold childrenO2MAt
          rw [if_pos ⟨by omega, hlev⟩, hspec,
            map_fst_filter regs (fun r => !isM2OCard r) _ hconsist]
      · rw [getD_modifyIdx_ne _ hjm]
        by_cases hjc : j ∈ (takeChildren (regs.getD m default).level
            ((List.enumFrom 0 regs).drop (m + 1))).map Prod.fst
        · -- j is a child of the register at position m
          obtain ⟨p, hp, hp1⟩ := List.mem_map.mp hjc
          obtain ⟨p1, p2⟩ := p
          simp only at hp1
          subst hp1
          have hp2 : p2 = regs.getD p1 default := hconsist (p1, p2) hp
          subst hp2
          have hjm_spec : p1 ∈ specChildren regs m := by rw [hspec]; exact hjc
          have hwnone : writerIn regs m p1 = none :=
            writerIn_none_lt regs hm (le_refl m) hjm_spec
          have hwsome : writerIn regs (m + 1) p1 = some m :=
            writerIn_of_mem regs hm (by omega) (by omega) hlev hjm_spec
          rw [getD_applyWrites_mem m _ _ p1 (regs.getD p1 default) hnodup
            (fun q hq => by rw [stateAt_length]; exact hbounds q hq) hp]
          by_cases hcard : isM2OCard (regs.getD p1 default)
          · rw [if_pos hcard]
            refine ⟨ihj.1, by rw [hwsome], ?_, ?_, ?_⟩
            · show ((stateAt regs m).getD p1 default).o2m_parent = _
              rw [ihj.2.2.1, hwnone, hwsome]
              show o2mOf regs none p1 = o2mOf regs (some m) p1
              simp only [o2mOf]
              rw [if_pos hcard]
            · rw [childrenM2OAt_succ_ne regs hjm]; exact ihj.2.2.2.1
            · rw [childrenO2MAt_succ_ne regs hjm]; exact ihj.2.2.2.2
          · rw [if_neg hcard]
            refine ⟨ihj.1, by rw [hwsome], ?_, ?_, ?_⟩
            · rw [hwsome]
              show some m = o2mOf regs (some m) p1
              simp only [o2mOf]
              rw [if_neg hcard]
            · rw [childrenM2OAt_succ_ne regs hjm]; exact ihj.2.2.2.1
            · rw [childrenO2MAt_succ_ne regs hjm]; exact ihj.2.2.2.2
        · -- j is untouched by this iteration
          rw [getD_applyWrites_notmem m _ _ j hjc]
          have hjnotspec : j ∉ specChildren regs m := by rw [hspec]; exact hjc
          have hw : writerIn regs (m + 1) j = writerIn regs m j :=
            writerIn_succ_skip regs (by rw [decide_eq_false hjnotspec, Bool.and_false])
          refine ⟨ihj.1, by rw [hw]; exact ihj.2.1, by rw [hw]; exact ihj.2.2.1, ?_, ?_⟩
          · rw [childrenM2OAt_succ_ne regs hjm]; exact ihj.2.2.2.1
          · rw [childrenO2MAt_succ_ne regs hjm]; exact ihj.2.2.2.2

theorem stateAt_full (regs : List Reg) :
    stateAt regs regs.length = collect_register_children regs := by
  unfold stateAt collect_register_children
  rw [enumFrom_take, List.take_length]

/-- C1: for every register with level greater than 1 in the input list,
`collect_register_children` sets its `children_m2o` and `children_o2m` to
exactly the registers that follow it in the list, before the next register
whose level is less than or equal to its own, and whose level equals its
level plus one: a child whose stripped card is `1:1` or `1;1` goes into
`children_m2o`, every other child goes into `children_o2m` and gets the
register recorded as its `o2m_parent`; every such child also gets the
register recorded as its `parent`.  (Registers are identified by their
position; the hypothesis that codes are pairwise distinct reflects the
uniqueness of register codes within a SPED layout, which the code's
matching by code relies on.) -/
theorem collect_register_children_spec (regs : List Reg)
    (hcodes : regs.Pairwise (fun a b => a.code ≠ b.code))
    (i : Nat) (hi : i < regs.length)
    (hlev : 1 < (regs.getD i default).level) :
    ((collect_register_children regs).getD i default).children_m2o =
        some ((specChildren regs i).filter (fun c => isM2OCard (regs.getD c default))) ∧
    ((collect_register_children regs).getD i default).children_o2m =
        some ((specChildren regs i).filter (fun c => !isM2OCard (regs.getD c default))) ∧
    ∀ j ∈ specChildren regs i,
      ((collect_register_children regs).getD j default).parent = some i ∧
      ((collect_register_children regs).getD j default).o2m_parent =
        (if isM2OCard (regs.getD j default) then none else some i) := by
  rw [← stateAt_full]
  have hinv := stateAt_inv regs hcodes regs.length (le_refl _)
  refine ⟨?_, ?_, ?_⟩
  · rw [(hinv i hi).2.2.2.1]
    unfold childrenM2OAt
    rw [if_pos ⟨hi, hlev⟩]
  · rw [(hinv i hi).2.2.2.2]
    unfold childrenO2MAt
    rw [if_pos ⟨hi, hlev⟩]
  · intro j hj
    have hjlen : j < regs.length := specChildren_lt_length regs hi hj
    have hw : writerIn regs regs.length j = some i :=
      writerIn_of_mem regs hi hi (le_refl _) hlev hj
    constructor
    · rw [(hinv j hjlen).2.1, hw]
    · rw [(hinv j hjlen).2.2.1, hw]
      simp only [o2mOf]

/-- A concrete register hierarchy used to witness `collect_register_children_spec`. -/
def c1Regs : List Reg :=
  [{ code := "A100", level := 2, card := "1:N" },
   { code := "A110", level := 3, card := " 1:1 " },
   { code := "A120", level := 3, card := "1:N" }]

theorem collect_register_children_spec_witness :
    c1Regs.Pairwise (fun a b => a.code ≠ b.code) ∧
    0 < c1Regs.length ∧
    1 < (c1Regs.getD 0 default).level ∧
    (((collect_register_children c1Regs).getD 0 default).children_m2o =
        some ((specChildren c1Regs 0).filter (fun c => isM2OCard (c1Regs.getD c default))) ∧
     ((collect_register_children c1Regs).getD 0 default).children_o2m =
        some ((specChildren c1Regs 0).filter (fun c => !isM2OCard (c1Regs.getD c default))) ∧
     ∀ j ∈ specChildren c1Regs 0,
       ((collect_register_children c1Regs).getD j default).parent = some 0 ∧
       ((collect_register_children c1Regs).getD j default).o2m_parent =
         (if isM2OCard (c1Regs.getD j default) then none else some 0)) :=
  ⟨by decide, by decide, by decide,
   collect_register_children_spec c1Regs (by decide) 0 (by decide) (by decide)⟩

/-! ## Fields and the per-register deduplication pass (`main`, lines 400–417)

A field row, as produced by `get_fields`: only the keys the generator
reads.  Keys that may be missing from the extracted dict are `Option`s;
`index` is the line field index used for deduplication. -/

structure SpedField where
  register : String
  code : String
  index : Int
  fieldType : Option String := none
  decimal : Option String := none
  length : Option String := none
  desc : String := ""
  required : Bool := false
  xsd_type : Option String := none
  in_required : Bool := false
  out_required : Bool := false
deriving Repr, DecidableEq, Inhabited

/-- `f'{field["code"]}_INDEX_{field["index"]}'`. -/
def rnField (f : SpedField) : String :=
  f.code ++ "_INDEX_" ++ toString f.index

/-- The loop body of the deduplication pass, carrying the `unique_codes`
set (as a list): a field whose code is already in the set gets its code
replaced by `code_INDEX_index`; the (possibly renamed) code is added to
the set and the field is appended. -/
def dedupGo (seen : List String) : List SpedField → List SpedField
  | [] => []
  | f :: rest =>
    if f.code ∈ seen then
      { f with code := rnField f } :: dedupGo (rnField f :: seen) rest
    else
      f :: dedupGo (f.code :: seen) rest

/-- The per-register deduplication pass of `main`: make the register's
field codes unique, starting from an empty `unique_codes` set. -/
def dedupFields (fields : List SpedField) : List SpedField :=
  dedupGo [] fields

/-- Pairwise well-formedness of a register's fields: no field's code looks
like another's renamed code, and the renamed codes are pairwise distinct
(true of real SPED data, where indexes are distinct positions). -/
abbrev DedupSafe (fields : List SpedField) : Prop :=
  fields.Pairwise
    (fun f g => f.code ≠ rnField g ∧ g.code ≠ rnField f ∧ rnField f ≠ rnField g)

theorem dedupGo_length (rest : List SpedField) :
    ∀ seen, (dedupGo seen rest).length = rest.length := by
  induction rest with
  | nil => intro seen; rfl
  | cons f rest ih =>
    intro seen
    unfold dedupGo
    by_cases h : f.code ∈ seen
    · rw [if_pos h]; simp [ih]
    · rw [if_neg h]; simp [ih]

theorem dedupGo_nodup (rest : List SpedField) :
    ∀ seen, DedupSafe rest → (∀ f ∈ rest, rnField f ∉ seen) →
      ((dedupGo seen rest).map (fun f => f.code)).Nodup ∧
      (∀ c ∈ (dedupGo seen rest).map (fun f => f.code), c ∉ seen) := by
  induction rest with
  | nil => intro seen _ _; exact ⟨List.nodup_nil, fun c hc => by simp [dedupGo] at hc⟩
  | cons f rest ih =>
    intro seen hsafe hrn
    have hpair := List.pairwise_cons.mp hsafe
    have hsafe' : DedupSafe rest := hpair.2
    unfold dedupGo
    by_cases h : f.code ∈ seen
    · rw [if_pos h]
      have hrn' : ∀ g ∈ rest, rnField g ∉ rnField f :: seen := by
        intro g hg hmem
        rcases List.mem_cons.mp hmem with heq | hmem'
        · exact (hpair.1 g hg).2.2 heq.symm
        · exact hrn g (List.mem_cons_of_mem _ hg) hmem'
      obtain ⟨hnd, hnot⟩ := ih (rnField f :: seen) hsafe' hrn'
      simp only [List.map_cons]
      constructor
      · refine List.nodup_cons.mpr ⟨?_, hnd⟩
        intro hmem
        exact hnot _ hmem (List.mem_cons_self _ _)
      · intro c hc
        rcases List.mem_cons.mp hc with rfl | hc'
        · exact hrn f (List.mem_cons_self _ _)
        · exact fun hcs => hnot c hc' (List.mem_cons_of_mem _ hcs)
    · rw [if_neg h]
      have hrn' : ∀ g ∈ rest, rnField g ∉ f.code :: seen := by
        intro g hg hmem
        rcases List.mem_cons.mp hmem with heq | hmem'
        · exact (hpair.1 g hg).1 heq.symm
        · exact hrn g (List.mem_cons_of_mem _ hg) hmem'
      obtain ⟨hnd, hnot⟩ := ih (f.code :: seen) hsafe' hrn'
      simp only [List.map_cons]
      constructor
      · refine List.nodup_cons.mpr ⟨?_, hnd⟩
        intro hmem
        exact hnot _ hmem (List.mem_cons_self _ _)
      · intro c hc
        rcases List.mem_cons.mp hc with rfl | hc'
        · exact h
        · exact fun hcs => hnot c hc' (List.mem_cons_of_mem _ hcs)

theorem dedupGo_get (rest : List SpedField) :
    ∀ (seen origs : List String), DedupSafe rest →
      (∀ f ∈ rest, f.code ∈ seen ↔ f.code ∈ origs) →
      ∀ k, k < rest.length →
        ((dedupGo seen rest).getD k default).code =
          (if (rest.getD k default).code ∈ origs ∨
              (rest.getD k default).code ∈ (rest.take k).map (fun f => f.code)
           then rnField (rest.getD k default)
           else (rest.getD k default).code) := by
  induction rest with
  | nil => intro seen origs _ _ k hk; simp at hk
  | cons f rest ih =>
    intro seen origs hsafe hM k hk
    have hpair := List.pairwise_cons.mp hsafe
    have hMf : f.code ∈ seen ↔ f.code ∈ origs := hM f (List.mem_cons_self _ _)
    cases k with
    | zero =>
      simp only [List.getD_cons_zero, List.take_zero, List.map_nil,
        List.not_mem_nil, or_false]
      unfold dedupGo
      by_cases h : f.code ∈ seen
      · rw [if_pos h, if_pos (hMf.mp h), List.getD_cons_zero]
      · rw [if_neg h, if_neg (fun ho => h (hMf.mpr ho)), List.getD_cons_zero]
    | succ k =>
      have hk' : k < rest.length := by simpa using hk
      simp only [List.getD_cons_succ, List.take_succ_cons, List.map_cons]
      unfold dedupGo
      by_cases h : f.code ∈ seen
      · rw [if_pos h, List.getD_cons_succ]
        have hM' : ∀ g ∈ rest, g.code ∈ rnField f :: seen ↔ g.code ∈ f.code :: origs := by
          intro g hg
          constructor
          · intro hmem
            rcases List.mem_cons.mp hmem with heq | hmem'
            · exact absurd heq (hpair.1 g hg).2.1
            · exact List.mem_cons_of_mem _ ((hM g (List.mem_cons_of_mem _ hg)).mp hmem')
          · intro hmem
            rcases List.mem_cons.mp hmem with heq | hmem'
            · exact List.mem_cons_of_mem _ (by rw [heq]; exact h)
            · exact List.mem_cons_of_mem _ ((hM g (List.mem_cons_of_mem _ hg)).mpr hmem')
        rw [ih (rnField f :: seen) (f.code :: origs) hpair.2 hM' k hk']
        have hiff : ((rest.getD k default).code ∈ f.code :: origs ∨
            (rest.getD k default).code ∈ (rest.take k).map (fun f => f.code)) ↔
            ((rest.getD k default).code ∈ origs ∨
             (rest.getD k default).code ∈ f.code :: (rest.take k).map (fun f => f.code)) := by
          simp only [List.mem_cons]
          tauto
        by_cases hc : (rest.getD k default).code ∈ f.code :: origs ∨
            (rest.getD k default).code ∈ (rest.take k).map (fun f => f.code)
        · rw [if_pos hc, if_pos (hiff.mp hc)]
        · rw [if_neg hc, if_neg (fun hx => hc (hiff.mpr hx))]
      · rw [if_neg h, List.getD_cons_succ]
        have hM' : ∀ g ∈ rest, g.code ∈ f.code :: seen ↔ g.code ∈ f.code :: origs := by
          intro g hg
          simp only [List.mem_cons]
          rw [hM g (List.mem_cons_of_mem _ hg)]
        rw [ih (f.code :: seen) (f.code :: origs) hpair.2 hM' k hk']
        have hiff : ((rest.getD k default).code ∈ f.code :: origs ∨
            (rest.getD k default).code ∈ (rest.take k).map (fun f => f.code)) ↔
            ((rest.getD k default).code ∈ origs ∨
             (rest.getD k default).code ∈ f.code :: (rest.take k).map (fun f => f.code)) := by
          simp only [List.mem_cons]
          tauto
        by_cases hc : (rest.getD k default).code ∈ f.code :: origs ∨
            (rest.getD k default).code ∈ (rest.take k).map (fun f => f.code)
        · rw [if_pos hc, if_pos (hiff.mp hc)]
        · rw [if_neg hc, if_neg (fun hx => hc (hiff.mpr hx))]

/-- C2, counterexample: as stated the claim is false.  A register whose
extracted fields carry duplicate codes *and* a duplicated index (here
three fields coded `A` with indexes 1, 5, 5) ends the deduplication pass
with two fields both coded `A_INDEX_5`. -/
theorem dedup_counterexample :
    ¬ (((dedupFields
          [{ register := "X", code := "A", index := 1 },
           { register := "X", code := "A", index := 5 },
           { register := "X", code := "A", index := 5 }]).map
        (fun f => f.code)).Nodup) := by
  decide

/-- C2, amended: provided no field's code equals another field's code
followed by `_INDEX_` and that field's index, and the renamed codes
`code_INDEX_index` are pairwise distinct across the register's fields,
the deduplication pass keeps the length, leaves the first field bearing a
given code unchanged, renames every later field whose code already
occurred to `code_INDEX_index`, and the resulting codes are pairwise
distinct. -/
theorem dedupFields_spec (fields : List SpedField) (hsafe : DedupSafe fields) :
    (dedupFields fields).length = fields.length ∧
    ((dedupFields fields).map (fun f => f.code)).Nodup ∧
    ∀ k, k < fields.length →
      ((dedupFields fields).getD k default).code =
        (if (fields.getD k default).code ∈ (fields.take k).map (fun f => f.code)
         then rnField (fields.getD k default)
         else (fields.getD k default).code) := by
  refine ⟨dedupGo_length fields [], (dedupGo_nodup fields [] hsafe (by simp)).1, ?_⟩
  intro k hk
  have := dedupGo_get fields [] [] hsafe (by simp) k hk
  simpa using this

/-- Concrete fields used to witness `dedupFields_spec`. -/
def c2Fields : List SpedField :=
  [{ register := "X", code := "A", index := 1 },
   { register := "X", code := "A", index := 2 },
   { register := "X", code := "B", index := 3 }]

theorem dedupFields_spec_witness :
    DedupSafe c2Fields ∧
    ((dedupFields c2Fields).length = c2Fields.length ∧
     ((dedupFields c2Fields).map (fun f => f.code)).Nodup ∧
     ∀ k, k < c2Fields.length →
       ((dedupFields c2Fields).getD k default).code =
         (if (c2Fields.getD k default).code ∈ (c2Fields.take k).map (fun f => f.code)
          then rnField (c2Fields.getD k default)
          else (c2Fields.getD k default).code)) :=
  ⟨by decide, dedupFields_spec c2Fields (by decide)⟩

/-! ## `SpedFilters._extract_field_attributes` / `_extract_number_attrs`

The `kwargs` ordered dict built for each field, modelled as a record of
the keys the two methods may set. -/

structure Kwargs where
  string : Option String := none
  required : Bool := false
  ondelete : Option String := none
  sped_card : Option String := none
  sped_required : Bool := false
  xsd_type : Option String := none
  in_required : Bool := false
  out_required : Bool := false
  sped_length : Option String := none
  digits : Option (Int × Int) := none
  currency_field : Option String := none
  help : Option String := none
deriving Repr, DecidableEq, Inhabited

/-- `attr.name.startswith("VL_") / ("VAL_") / ("VALOR")` (written in the
source once as three tests and once as a tuple argument). -/
def startsVal (name : String) : Bool :=
  pyStartsWith name "VL_" || pyStartsWith name "VAL_" || pyStartsWith name "VALOR"

/-- `SpedFilters._extract_number_attrs`: `attrName` is `attr.name`,
`typeCodes` the datatype codes of `attr.types` (indexing an empty list
raises, hence `none`), and the kwargs dict is updated in place (returned;
`int()` on a malformed slice raises, hence `none`). -/
def extract_number_attrs (attrName : String) (typeCodes : List String)
    (kwargs : Kwargs) : Option Kwargs :=
  match typeCodes.head? with
  | none => none
  | some python_type =>
    if python_type = "float" ∨ python_type = "decimal" ∨ python_type = "integer" then
      let xsd_type := kwargs.xsd_type.getD ""
      if pyStartsWith xsd_type "TDec_" then
        match pyInt? (pySlice xsd_type 7 9) with
        | none => none
        | some scale =>
          if scale ≠ 2 ∨ ¬ startsVal attrName then
            match pyInt? (pySlice xsd_type 5 7) with
            | none => none
            | some prec => some { kwargs with digits := some (prec, scale) }
          else
            some { kwargs with currency_field := some "brl_currency_id" }
      else if startsVal attrName then
        some { kwargs with currency_field := some "brl_currency_id" }
      else
        some kwargs
    else
      some kwargs

/-- C3: for an attribute whose first type's datatype code is `float`,
`decimal` or `integer`: with an xsd_type starting with `TDec_`, the kwargs
gain `currency_field = "brl_currency_id"` exactly when the two scale
digits (positions 7–8) equal 2 and the name starts with `VL_`/`VAL_`/
`VALOR`, and in every other TDec case they instead gain
`digits = (precision digits, scale digits)`; with no TDec xsd_type,
`currency_field` is set exactly when the name has one of those prefixes. -/
theorem extract_number_attrs_spec (attrName t : String) (ts : List String) (kw : Kwargs)
    (hht : ts.head? = some t)
    (ht : t = "float" ∨ t = "decimal" ∨ t = "integer")
    (hcur : kw.currency_field = none) (hdig : kw.digits = none) :
    (¬ pyStartsWith (kw.xsd_type.getD "") "TDec_" = true →
      ∃ kw', extract_number_attrs attrName ts kw = some kw' ∧
        (kw'.currency_field = some "brl_currency_id" ↔ startsVal attrName = true) ∧
        kw'.digits = none) ∧
    (∀ sc pr : Int,
      pyStartsWith (kw.xsd_type.getD "") "TDec_" = true →
      pyInt? (pySlice (kw.xsd_type.getD "") 7 9) = some sc →
      pyInt? (pySlice (kw.xsd_type.getD "") 5 7) = some pr →
      ∃ kw', extract_number_attrs attrName ts kw = some kw' ∧
        (kw'.currency_field = some "brl_currency_id" ↔ (sc = 2 ∧ startsVal attrName = true)) ∧
        (kw'.digits = some (pr, sc) ↔ ¬ (sc = 2 ∧ startsVal attrName = true))) := by
  constructor
  · intro hnot
    unfold extract_number_attrs
    rw [hht]
    simp only [if_pos ht]
    rw [if_neg hnot]
    by_cases hval : startsVal attrName
    · rw [if_pos hval]
      exact ⟨_, rfl, by simp [hval], hdig⟩
    · rw [if_neg hval]
      exact ⟨_, rfl, by simp [hcur, hval], hdig⟩
  · intro sc pr htdec hsc hpr
    unfold extract_number_attrs
    rw [hht]
    simp only [if_pos ht]
    rw [if_pos htdec]
    simp only [hsc]
    by_cases hc : sc = 2 ∧ startsVal attrName = true
    · rw [if_neg (by push_neg; exact hc)]
      exact ⟨_, rfl, by simpa using hc, by simp [hdig, hc]⟩
    · have hcond : sc ≠ 2 ∨ ¬ startsVal attrName = true := by tauto
      rw [if_pos hcond]
      simp only [hpr]
      refine ⟨_, rfl, by simp [hcur, hc], by simpa using hc⟩

def c3Kw : Kwargs := { xsd_type := some "TDec_1602" }

theorem extract_number_attrs_spec_witness :
    (["float"] : List String).head? = some "float" ∧
    c3Kw.currency_field = none ∧ c3Kw.digits = none ∧
    ((¬ pyStartsWith (c3Kw.xsd_type.getD "") "TDec_" = true →
       ∃ kw', extract_number_attrs "VL_ICMS" ["float"] c3Kw = some kw' ∧
         (kw'.currency_field = some "brl_currency_id" ↔ startsVal "VL_ICMS" = true) ∧
         kw'.digits = none) ∧
     (∀ sc pr : Int,
       pyStartsWith (c3Kw.xsd_type.getD "") "TDec_" = true →
       pyInt? (pySlice (c3Kw.xsd_type.getD "") 7 9) = some sc →
       pyInt? (pySlice (c3Kw.xsd_type.getD "") 5 7) = some pr →
       ∃ kw', extract_number_attrs "VL_ICMS" ["float"] c3Kw = some kw' ∧
         (kw'.currency_field = some "brl_currency_id" ↔ (sc = 2 ∧ startsVal "VL_ICMS" = true)) ∧
         (kw'.digits = some (pr, sc) ↔ ¬ (sc = 2 ∧ startsVal "VL_ICMS" = true)))) :=
  ⟨rfl, rfl, rfl,
   extract_number_attrs_spec "VL_ICMS" "float" ["float"] c3Kw rfl (Or.inl rfl) rfl rfl⟩

/-! ## The XML Schema type chosen for a field (`main`, lines 419–465) -/

/-- The XML Schema namespace prefix of the qnames built in `main`. -/
def xsNS : String := "\x7bhttp://www.w3.org/2001/XMLSchema\x7d"

/-- `if not field.get("type"): field["type"] = "char"`. -/
def defaultCharType (f : SpedField) : SpedField :=
  if pyTruthy f.fieldType then f else { f with fieldType := some "char" }

/-- The compound condition
`field["type"] == "int" or field["type"] == "float" and field.get("decimal")
and int(field["decimal"]) == 0`, with python's short-circuiting:
`int()` is evaluated (and may raise) only when the type is `float` and
`decimal` is truthy. -/
def intCond (g : SpedField) : Option Bool :=
  if g.fieldType = some "int" then some true
  else if g.fieldType = some "float" ∧ pyTruthy g.decimal = true then
    (pyInt? (g.decimal.getD "")).map (fun d => d == 0)
  else some false

/-- The `if/elif` chain of `main` choosing the `AttrType` qname for a
(type-defaulted) field. -/
def chooseTypeBody (g : SpedField) : Option (Option String) :=
  if pyStartsWith g.code "DT_" || pyStartsWith g.code "DAT_" || pyStartsWith g.code "DATA" then
    some (some (xsNS ++ "date"))
  else
    match intCond g with
    | none => none
    | some true => some (some (xsNS ++ "integer"))
    | some false =>
      if g.fieldType = some "float" then some (some (xsNS ++ "float"))
      else some (some (xsNS ++ "string"))

/-- The per-field head of the field loop in `main`: fields coded `REG` are
skipped (`some none`), otherwise the field's type is defaulted to `char`
and the `AttrType` qname is chosen (`none` models an `int()` exception). -/
def chooseFieldType (f : SpedField) : Option (Option String) :=
  if f.code = "REG" then some none
  else chooseTypeBody (defaultCharType f)

/-- The case analysis of claim C4, stated in the claim's order on the
type-defaulted field. -/
def claimedBody (g : SpedField) : String :=
  if pyStartsWith g.code "DT_" || pyStartsWith g.code "DAT_" || pyStartsWith g.code "DATA" then
    xsNS ++ "date"
  else if g.fieldType = some "int" ∨
      (g.fieldType = some "float" ∧ pyTruthy g.decimal = true ∧
        pyInt? (g.decimal.getD "") = some 0) then
    xsNS ++ "integer"
  else if g.fieldType = some "float" then
    xsNS ++ "float"
  else
    xsNS ++ "string"

def claimedXsdType (f : SpedField) : String :=
  claimedBody (defaultCharType f)

theorem chooseTypeBody_spec (g : SpedField)
    (hdec : pyTruthy g.decimal = true → (pyInt? (g.decimal.getD "")).isSome) :
    chooseTypeBody g = some (some (claimedBody g)) := by
  unfold chooseTypeBody claimedBody
  by_cases hdt : (pyStartsWith g.code "DT_" || pyStartsWith g.code "DAT_" ||
      pyStartsWith g.code "DATA") = true
  · rw [if_pos hdt, if_pos hdt]
  · rw [if_neg hdt, if_neg hdt]
    by_cases hint : g.fieldType = some "int"
    · have h1 : intCond g = some true := by unfold intCond; rw [if_pos hint]
      simp only [h1]
      rw [if_pos (Or.inl hint)]
    · by_cases hfd : g.fieldType = some "float" ∧ pyTruthy g.decimal = true
      · cases hparse : pyInt? (g.decimal.getD "") with
        | none => exact absurd (hdec hfd.2) (by simp [hparse])
        | some d =>
          have h1 : intCond g = some (d == 0) := by
            unfold intCond
            rw [if_neg hint, if_pos hfd, hparse, Option.map_some']
          simp only [h1]
          by_cases hd : d = 0
          · have hb : (d == 0) = true := by simp [hd]
            rw [hb]
            rw [if_pos (Or.inr ⟨hfd.1, hfd.2, by rw [hd]⟩)]
          · have hb : (d == 0) = false := by simp [hd]
            rw [hb]
            have hni : ¬ (g.fieldType = some "int" ∨
                (g.fieldType = some "float" ∧ pyTruthy g.decimal = true ∧
                  (some d : Option Int) = some 0)) := by
              rintro (h | ⟨_, _, hp⟩)
              · exact hint h
              · exact hd (by simpa using hp)
            rw [if_neg hni, if_pos hfd.1, if_pos hfd.1]
      · have h1 : intCond g = some false := by
          unfold intCond
          rw [if_neg hint, if_neg hfd]
        simp only [h1]
        have hni : ¬ (g.fieldType = some "int" ∨
            (g.fieldType = some "float" ∧ pyTruthy g.decimal = true ∧
              pyInt? (g.decimal.getD "") = some 0)) := by
          rintro (h | ⟨h1', h2', _⟩)
          · exact hint h
          · exact hfd ⟨h1', h2'⟩
        rw [if_neg hni]
        by_cases hft : g.fieldType = some "float"
        · rw [if_pos hft, if_pos hft]
        · rw [if_neg hft, if_neg hft]

/-- C4: for every field of a generated register (fields coded `REG`
excluded, a field with no type first defaulted to `char`), the XML Schema
type of the emitted attribute is chosen in order: `date` if the code
starts with `DT_`, `DAT_` or `DATA`; otherwise `integer` if the type is
`int` or the type is `float` with a decimal value equal to 0; otherwise
`float` if the type is `float`; otherwise `string`. -/
theorem chooseFieldType_spec (f : SpedField)
    (hdec : pyTruthy (defaultCharType f).decimal = true →
      (pyInt? ((defaultCharType f).decimal.getD "")).isSome) :
    (f.code = "REG" → chooseFieldType f = some none) ∧
    (f.code ≠ "REG" → chooseFieldType f = some (some (claimedXsdType f))) := by
  constructor
  · intro h
    unfold chooseFieldType
    rw [if_pos h]
  · intro h
    unfold chooseFieldType claimedXsdType
    rw [if_neg h]
    exact chooseTypeBody_spec (defaultCharType f) hdec

def c4Field : SpedField :=
  { register := "C170", code := "VL_ITEM", index := 7,
    fieldType := some "float", decimal := some "2" }

theorem chooseFieldType_spec_witness :
    (pyTruthy (defaultCharType c4Field).decimal = true →
      (pyInt? ((defaultCharType c4Field).decimal.getD "")).isSome) ∧
    ((c4Field.code = "REG" → chooseFieldType c4Field = some none) ∧
     (c4Field.code ≠ "REG" →
       chooseFieldType c4Field = some (some (claimedXsdType c4Field)))) :=
  ⟨by decide, chooseFieldType_spec c4Field (by decide)⟩

/-! ## `SpedFilters._extract_field_attributes` (lines 147–217)

The xsdata `Attr` as this method reads it: its name, the datatype codes of
its types, the `is_list`/`is_optional` flags, and its help text. -/

structure XAttr where
  name : String
  typesCodes : List String
  isList : Bool
  isOptional : Bool
  help : Option String := none
deriving Repr, DecidableEq, Inhabited

/-- The `reg_..._ids` relational branch: look up the target register by
code (indexing an empty filter result raises, hence `none`), record its
card, and `sped_required` when its `spec_required` is `"Sim"`. -/
def relRegKwargs (registers : List Reg) (attrName : String) (kwargs : Kwargs) :
    Option Kwargs :=
  let target_reg_code := pyReplace (pyReplace attrName "reg_" "") "_ids" ""
  match registers.find? (fun x => x.code = target_reg_code) with
  | none => none
  | some target_register =>
    let kwargs := { kwargs with sped_card := some target_register.card }
    if target_register.spec_required = some "Sim" then
      some { kwargs with sped_required := true }
    else
      some kwargs

/-- The simple-type branch: look up the field by code and register
(`obj.name[-4:]`), record `xsd_type`, `in_required`/`out_required` and
`sped_length`, and override `xsd_type` with a `TDec_16..` type for float
fields with a decimal count. -/
def simpleKwargs (fields : List SpedField) (objName : String) (attr : XAttr)
    (kwargs : Kwargs) : Option Kwargs :=
  match fields.find? (fun x => x.code = attr.name ∧ x.register = pyLastChars objName 4) with
  | none => none
  | some field =>
    let kwargs := if pyTruthy field.xsd_type then { kwargs with xsd_type := field.xsd_type }
                  else kwargs
    let kwargs := if field.in_required then { kwargs with in_required := true }
                  else if field.out_required then { kwargs with out_required := true }
                  else kwargs
    let kwargs := if pyTruthy field.length then
                    { kwargs with sped_length := some (pyReplace (field.length.getD "") "0" "") }
                  else kwargs
    if attr.typesCodes.head? = some "float" ∧ pyTruthy field.decimal = true then
      match pyInt? (field.decimal.getD "") with
      | none => none
      | some digits =>
        if digits < 10 then
          some { kwargs with xsd_type := some ("TDec_160" ++ toString digits) }
        else
          some { kwargs with xsd_type := some ("TDec_16" ++ toString digits) }
    else
      some kwargs

/-- `SpedFilters._extract_field_attributes`.  `esh` stands for the
external `extract_string_and_help` (returning the short string and the
help text), `mR` for the truthiness of `metadata.get("required")`; both
come from the xsdata-odoo library, which is outside this repository. -/
def extract_field_attributes
    (esh : String → String → Option String → String × Option String)
    (mR : Bool) (registers : List Reg) (fields : List SpedField)
    (objName : String) (attr : XAttr) : Option Kwargs :=
  let se := esh objName attr.name attr.help
  match (if pyEndsWith se.1 "_ids" then ((splitUnderscore se.1.data).get? 1).map String.mk
         else some se.1) with
  | none => none
  | some string1 =>
    let kwargs : Kwargs := { string := some string1 }
    let kwargs := if mR ∨ (¬ attr.isList ∧ ¬ attr.isOptional) then
                    { kwargs with required := true }
                  else kwargs
    let res :=
      if pyEndsWith attr.name "_id" = true ∧ pyContains attr.name "_Registro" = true then
        some { kwargs with ondelete := some "cascade" }
      else if pyStartsWith attr.name "reg_" = true ∧ pyEndsWith attr.name "_ids" = true then
        relRegKwargs registers attr.name kwargs
      else
        simpleKwargs fields objName attr kwargs
    res.map (fun kw => if pyTruthy se.2 then { kw with help := se.2 } else kw)

theorem simpleKwargs_sped_length (fields : List SpedField) (objName : String)
    (attr : XAttr) (kwargs kw : Kwargs) (f : SpedField)
    (hfind : fields.find? (fun x => x.code = attr.name ∧ x.register = pyLastChars objName 4) =
      some f)
    (hlen : pyTruthy f.length = true)
    (hres : simpleKwargs fields objName attr kwargs = some kw) :
    kw.sped_length = some (pyReplace (f.length.getD "") "0" "") := by
  unfold simpleKwargs at hres
  simp only [hfind] at hres
  rw [if_pos hlen] at hres
  by_cases hfl : attr.typesCodes.head? = some "float" ∧ pyTruthy f.decimal = true
  · rw [if_pos hfl] at hres
    cases hp : pyInt? (f.decimal.getD "") with
    | none => simp only [hp] at hres; exact Option.noConfusion hres
    | some digits =>
      simp only [hp] at hres
      by_cases hd : digits < 10
      · rw [if_pos hd] at hres
        injection hres with h
        subst h
        rfl
      · rw [if_neg hd] at hres
        injection hres with h
        subst h
        rfl
  · rw [if_neg hfl] at hres
    injection hres with h
    subst h
    rfl

/-- C10: for every field with a non-empty `length` processed on the
simple-type branch, the returned kwargs contain `sped_length` equal to the
field's length string with every `0` character removed (`str` applied to
`field["length"].replace("0", "")`). -/
theorem extract_field_attributes_sped_length
    (esh : String → String → Option String → String × Option String)
    (mR : Bool) (registers : List Reg) (fields : List SpedField)
    (objName : String) (attr : XAttr) (kw : Kwargs) (f : SpedField)
    (hrel1 : ¬ (pyEndsWith attr.name "_id" = true ∧ pyContains attr.name "_Registro" = true))
    (hrel2 : ¬ (pyStartsWith attr.name "reg_" = true ∧ pyEndsWith attr.name "_ids" = true))
    (hfind : fields.find? (fun x => x.code = attr.name ∧ x.register = pyLastChars objName 4) =
      some f)
    (hlen : pyTruthy f.length = true)
    (hres : extract_field_attributes esh mR registers fields objName attr = some kw) :
    kw.sped_length = some (pyReplace (f.length.getD "") "0" "") := by
  unfold extract_field_attributes at hres
  simp only [] at hres
  cases hs : (if pyEndsWith (esh objName attr.name attr.help).1 "_ids" = true then
      ((splitUnderscore (esh objName attr.name attr.help).1.data).get? 1).map String.mk
      else some (esh objName attr.name attr.help).1) with
  | none => simp only [hs] at hres; exact Option.noConfusion hres
  | some string1 =>
    simp only [hs] at hres
    rw [if_neg hrel1, if_neg hrel2] at hres
    simp only [Option.map_eq_some'] at hres
    obtain ⟨y, hy, hkw⟩ := hres
    have hysl := simpleKwargs_sped_length fields objName attr _ y f hfind hlen hy
    by_cases hh : pyTruthy (esh objName attr.name attr.help).2 = true
    · rw [if_pos hh] at hkw
      rw [← hkw]
      exact hysl
    · rw [if_neg hh] at hkw
      rw [← hkw]
      exact hysl

def c10Esh : String → String → Option String → String × Option String :=
  fun _ a _ => (a, none)

def c10Attr : XAttr :=
  { name := "NUM_ITEM", typesCodes := ["string"], isList := false, isOptional := true }

def c10Field : SpedField :=
  { register := "C170", code := "NUM_ITEM", index := 2, length := some "102" }

def c10Kw : Kwargs := { string := some "NUM_ITEM", sped_length := some "12" }

theorem extract_field_attributes_sped_length_witness :
    extract_field_attributes c10Esh false [] [c10Field] "RegistroC170" c10Attr = some c10Kw ∧
    pyTruthy c10Field.length = true ∧
    c10Kw.sped_length = some (pyReplace (c10Field.length.getD "") "0" "") :=
  ⟨by decide, by decide,
   extract_field_attributes_sped_length c10Esh false [] [c10Field] "RegistroC170"
     c10Attr c10Kw c10Field (by decide) (by decide) (by decide) (by decide) (by decide)⟩

/-! ## The per-module generation loop of `main` (lines 252–585) -/

/-- Concatenation of a list of strings, in order. -/
def strJoin : List String → String
  | [] => ""
  | s :: rest => s ++ strJoin rest

/-- Python `s * n` for a possibly negative int `n`. -/
def pyStrMul (s : String) (n : Int) : String :=
  strJoin (List.replicate n.toNat s)

/-- `_get_alphanum_sequence`: order the SPED registers as in the layout
(bloco 0, then letter blocos, then bloco 1, then bloco 9). -/
def get_alphanum_sequence (register_code : String) : String :=
  let bloco_key := pyFirst register_code
  if bloco_key = '0' then "0" ++ register_code
  else if bloco_key = '1' then "2" ++ register_code
  else if bloco_key = '9' then "3" ++ register_code
  else "1" ++ register_code

/-- Stable insertion preserving the relative order of `le`-equal elements
(python's `sorted` is a stable sort). -/
def insertLe (le : Reg → Reg → Bool) (r : Reg) : List Reg → List Reg
  | [] => [r]
  | x :: xs => if le x r then x :: insertLe le r xs else r :: x :: xs

def sortByLe (le : Reg → Reg → Bool) : List Reg → List Reg
  | [] => []
  | x :: xs => insertLe le x (sortByLe le xs)

/-- `registers = list(sorted(filter(...), key=_get_alphanum_sequence))`:
drop `C`-coded registers for the `ecd`/`ecf` modules, then sort stably by
the alphanumeric sequence key. -/
def mainRegisters (mod : String) (regsRaw : List Reg) : List Reg :=
  sortByLe
    (fun a b => !pyStrLt (get_alphanum_sequence b.code).data (get_alphanum_sequence a.code).data)
    (regsRaw.filter (fun x => pyFirst x.code ≠ 'C' ∨ (mod ≠ "ecd" ∧ mod ≠ "ecf")))

def SECURITY_HEADER : String :=
  "\"id\",\"name\",\"model_id:id\",\"group_id:id\",\"perm_read\",\"perm_write\",\"perm_create\",\"perm_unlink\"\n"

/-- The `access_user_...` CSV row: read permission only, for
`l10n_br_fiscal.group_user`. -/
def securityUserRow (mod code : String) : String :=
  "access_user_" ++ mod ++ "_" ++ pyLower code ++ "," ++ mod ++ "." ++ pyLower code ++
  ",model_l10n_br_sped_" ++ mod ++ "_" ++ pyLower code ++ ",l10n_br_fiscal.group_user,1,0,0,0\n"

/-- The `access_manager_...` CSV row: all four permissions, for
`l10n_br_fiscal.group_manager`. -/
def securityManagerRow (mod code : String) : String :=
  "access_manager_" ++ mod ++ "_" ++ pyLower code ++ "," ++ mod ++ "." ++ pyLower code ++
  ",model_l10n_br_sped_" ++ mod ++ "_" ++ pyLower code ++ ",l10n_br_fiscal.group_manager,1,1,1,1\n"

/-- The pieces appended to `views_xml`, as structured chunks; `renderChunk`
reproduces the exact strings of the source. -/
inductive ViewChunk where
  | rootMenu (mod : String)
  | declAction (mod : String)
  | declMenu (mod : String)
  | blocoMenu (mod : String) (bloco : Char)
  | regAction (mod code actionName : String)
  | regMenu (mod code : String) (bloco : Char)
deriving Repr, DecidableEq, Inhabited

def renderChunk : ViewChunk → String
  | .rootMenu mod =>
      "\n    <menuitem name=\"" ++ pyUpper (pyReplace mod "_" " ") ++
      "\" parent=\"l10n_br_sped_base.menu_root\" id=\"" ++ mod ++ "\" sequence=\"2\" />"
  | .declAction mod =>
      "\n\n    <record id=\"declaration_" ++ mod ++
      "_action\" model=\"ir.actions.act_window\">\n    <field name=\"name\">" ++
      pyUpper mod ++ " Declaration</field>\n    <field name=\"res_model\">l10n_br_sped." ++
      mod ++ ".0000</field>\n    <field name=\"view_mode\">tree,form</field>\n    </record>"
  | .declMenu mod =>
      "\n    <menuitem action=\"declaration_" ++ mod ++ "_action\" parent=\"" ++ mod ++
      "\" id=\"declaration_" ++ mod ++ "\" />"
  | .blocoMenu mod bloco =>
      "\n\n\n    <menuitem name=\"BLOCO " ++ String.mk [bloco] ++ "\" parent=\"" ++ mod ++
      "\" id=\"" ++ mod ++ "_" ++ String.mk [Char.toLower bloco] ++ "\" />"
  | .regAction mod code actionName =>
      "\n\n    <record id=\"" ++ mod ++ "_" ++ pyLower code ++
      "_action\" model=\"ir.actions.act_window\">\n        <field name=\"name\">" ++
      actionName ++ "</field>\n        <field name=\"res_model\">l10n_br_sped." ++ mod ++
      "." ++ pyLower code ++
      "</field>\n        <field name=\"view_mode\">tree,form</field>\n    </record>"
  | .regMenu mod code bloco =>
      "\n    <menuitem action=\"" ++ mod ++ "_" ++ pyLower code ++ "_action\" parent=\"" ++
      mod ++ "_" ++ String.mk [Char.toLower bloco] ++ "\" id=\"" ++ mod ++ "_" ++
      pyLower code ++ "\" />"

/-- The xsdata `Attr` objects built by the loop (types always hold a
single `AttrType`). -/
structure AttrData where
  tag : String
  name : String
  typeQname : String
  typeNative : Bool
  minOccurs : Option Nat := none
  maxOccurs : Option Nat := none
  help : Option String := none
  index : Option Int := none
deriving Repr, DecidableEq, Inhabited

/-- The xsdata `Class` built for each generated register. -/
structure ClassData where
  qname : String
  tag : String
  location : String := "TODO"
  attrs : List AttrData
  help : String
  module : String
deriving Repr, DecidableEq, Inhabited

/-- The comment line listing a field inside the concrete model source. -/
def fieldCommentLine (field : SpedField) : String :=
  let max_desc : Int := 88 - (field.code.length : Int) - 29
  "    #         \"" ++ field.code ++ "\": 0,  # " ++ pySliceUpper field.desc max_desc ++
  (if (field.desc.length : Int) > max_desc then "..." else "") ++ "\n"

/-- The `Attr` built for a simple field, with the chosen type qname. -/
def fieldAttr (field : SpedField) (qname : String) : AttrData :=
  { tag := field.code, name := field.code, typeQname := qname, typeNative := true,
    minOccurs := some (if field.required then 1 else 0),
    help := some field.desc, index := some field.index }

/-- The field loop of `main` (lines 419–481): skip `REG` fields, choose
each field's type (an `int()` failure aborts, `none`), and collect the
attributes together with the concrete-source comment lines. -/
def buildFieldAttrs : List SpedField → Option (List AttrData × String)
  | [] => some ([], "")
  | field :: rest =>
    match chooseFieldType field with
    | none => none
    | some none => buildFieldAttrs rest
    | some (some qname) =>
      match buildFieldAttrs rest with
      | none => none
      | some (attrs, comments) =>
        some (fieldAttr field qname :: attrs, fieldCommentLine field ++ comments)

/-- The m2o attribute pointing to the register's parent (lines 510–523). -/
def parentAttr (allRegs : List RegOut) (code : String) (pidx : Nat) : AttrData :=
  let parent := (allRegs.getD pidx default).reg
  let parent_qname := "Registro" ++ parent.code
  { tag := "reg_" ++ code ++ "_ids_" ++ parent_qname ++ "_id",
    name := "reg_" ++ code ++ "_ids_" ++ parent_qname ++ "_id",
    typeQname := parent_qname, typeNative := false,
    help := some parent.desc }

/-- The o2m attribute for one child register (lines 525–541). -/
def childAttr (allRegs : List RegOut) (cidx : Nat) : AttrData :=
  let child := (allRegs.getD cidx default).reg
  let child_qname := "Registro" ++ child.code
  { tag := "reg_" ++ child.code ++ "_ids", name := "reg_" ++ child.code ++ "_ids",
    typeQname := child_qname, typeNative := false,
    maxOccurs := some 999999,
    help := some (child.code ++ " " ++ child.desc) }

/-- The concrete model class header emitted for a generated register. -/
def concreteClassHeader (mod version code short_desc : String) : String :=
  "\n\nclass Registro" ++ code ++ "(models.Model):" ++
  "\n    \"" ++ short_desc ++ "\"" ++
  "\n    _description = textwrap.dedent(\"    %s\" % (__doc__,))" ++
  "\n    _name = \"l10n_br_sped." ++ mod ++ "." ++ pyLower code ++ "\"" ++
  "\n    _inherit = \"l10n_br_sped." ++ mod ++ "." ++ version ++ "." ++ pyLower code ++ "\"" ++
  "\n\n    # @api.model\n    # def _map_from_odoo(self, record, parent_record, declaration):\n    #     return \x7b\n                "

/-- Everything the register loop accumulates. -/
structure GenOut where
  classes : List (Nat × ClassData) := []
  security : String := ""
  views : List ViewChunk := []
  concrete : String := ""
deriving Repr, DecidableEq, Inhabited

/-- The `for register in registers` loop of `main`, one module at a time.
`esh` stands for the external `extract_string_and_help` short-description.
The loop carries `last_bloco` and stops at the first processed register
whose code starts with `9`; skipped level-0/1 registers (other than
`0000`) contribute nothing. -/
def genLoop (mod version : String) (esh : String → String → String → String)
    (allRegs : List RegOut) (mod_fields : List SpedField) :
    Option Char → List (Nat × RegOut) → Option GenOut
  | _, [] => some {}
  | lastBloco, (i, ro) :: rest =>
    let register := ro.reg
    if (register.level = 0 ∨ register.level = 1) ∧ register.code ≠ "0000" then
      genLoop mod version esh allRegs mod_fields lastBloco rest
    else if pyFirst register.code = '9' then
      some {}
    else
      let short_desc := esh mod register.code register.desc
      let concreteHeader :=
        if 1 < register.level ∨ register.code = "0000" then
          concreteClassHeader mod version register.code short_desc
        else ""
      let bloco_char := pyFirst register.code
      let blocoChunks : List ViewChunk :=
        if some bloco_char ≠ lastBloco then [.blocoMenu mod bloco_char] else []
      let regChunks : List ViewChunk :=
        if register.level = 2 then
          [.regAction mod register.code (register.code ++ " " ++ short_desc),
           .regMenu mod register.code bloco_char]
        else []
      let fields := dedupFields (mod_fields.filter (fun x => x.register = register.code))
      match buildFieldAttrs fields with
      | none => none
      | some fc =>
        let pAttrs : List AttrData :=
          match ro.parent with
          | none => []
          | some pidx => [parentAttr allRegs register.code pidx]
        let cAttrs : List AttrData :=
          ((ro.children_m2o.getD []) ++ (ro.children_o2m.getD [])).map (childAttr allRegs)
        let k : ClassData :=
          { qname := "Registro" ++ register.code, tag := "Registro" ++ register.code,
            attrs := fc.1 ++ pAttrs ++ cAttrs, help := register.desc, module := mod }
        match genLoop mod version esh allRegs mod_fields (some bloco_char) rest with
        | none => none
        | some out =>
          some { classes := (i, k) :: out.classes,
                 security := securityUserRow mod register.code ++
                   securityManagerRow mod register.code ++ out.security,
                 views := blocoChunks ++ regChunks ++ out.views,
                 concrete := concreteHeader ++ fc.2 ++ "    #     \x7d" ++ out.concrete }

/-- The registers the loop actually processes (neither skipped by the
level filter nor cut off by the bloco-9 break), in order. -/
def processedIdx : List (Nat × RegOut) → List (Nat × RegOut)
  | [] => []
  | (i, ro) :: rest =>
    if (ro.reg.level = 0 ∨ ro.reg.level = 1) ∧ ro.reg.code ≠ "0000" then processedIdx rest
    else if pyFirst ro.reg.code = '9' then []
    else (i, ro) :: processedIdx rest

/-- The blocos emitted by change detection against `last_bloco`. -/
def changes (lastBloco : Option Char) : List Char → List Char
  | [] => []
  | c :: cs => if some c ≠ lastBloco then c :: changes (some c) cs else changes (some c) cs

def blocoCharsOf (views : List ViewChunk) : List Char :=
  views.filterMap (fun c => match c with | .blocoMenu _ b => some b | _ => none)

def regActionCodes (views : List ViewChunk) : List String :=
  views.filterMap (fun c => match c with | .regAction _ code _ => some code | _ => none)

def regMenuCodes (views : List ViewChunk) : List String :=
  views.filterMap (fun c => match c with | .regMenu _ code _ => some code | _ => none)

/-- Chunks the register loop may emit (everything except the module-level
menu and declaration action emitted before the loop). -/
def isLoopChunk : ViewChunk → Bool
  | .blocoMenu _ _ => true
  | .regAction _ _ _ => true
  | .regMenu _ _ _ => true
  | _ => false

/-! ## `get_structure` and the per-module pipeline -/

/-- The text `get_structure` appends for one register. -/
def structureLine (mod : String) (esh : String → String → String → String)
    (ro : RegOut) : String :=
  let reg := ro.reg
  let short_desc := esh mod reg.code reg.desc
  if reg.level = 0 then ""
  else if reg.level = 1 then
    if ¬ pyContains reg.code "990" = true ∧ ¬ pyContains reg.code "099" = true then
      "\n\n<BLOCO " ++ String.mk [pyFirst reg.code] ++ ">"
    else ""
  else
    let head := if reg.level = 2 then "\n" else ""
    let desc0 := if reg.level = 2 then pyUpper short_desc
                 else if reg.level = 3 then short_desc
                 else ""
    let desc := if desc0 = reg.code then pySlice reg.desc 0 40 ++ "..." else desc0
    if ro.o2m_parent.isSome then
      head ++ "\n" ++ pyStrMul "  " (reg.level - 1) ++ "≡ " ++
        pyStrip (reg.code ++ " " ++ desc)
    else
      head ++ "\n" ++ pyStrMul "  " (reg.level - 1) ++ "- " ++
        pyStrip (reg.code ++ " " ++ desc)

/-- `get_structure(mod, registers)`. -/
def get_structure (mod : String) (esh : String → String → String → String)
    (ros : List RegOut) : String :=
  "STRUCTURE SPED " ++ pyUpper mod ++ strJoin (ros.map (structureLine mod esh))

def HEADER : String :=
  "# Copyright 2023 - TODAY, Akretion - Raphael Valyi <raphael.valyi@akretion.com>\n# License AGPL-3.0 or later (https://www.gnu.org/licenses/lgpl-3.0.en.html).\n# Generated by https://github.com/akretion/sped-extractor and xsdata-odoo\n# flake8: noqa: B950\n"

def IMPORTS : String :=
  "import textwrap\n\nfrom odoo import fields, models\n"

/-- One module's generation pass of `main`, from the extracted registers
and fields to the four produced texts (model source, concrete-model
source, views XML, security CSV).  The external collaborators are passed
in as functions: `esh` (`extract_string_and_help`), `render`
(`generator.render_classes`) and `fmt` (black's `format_str`; `none`
models the caught exception, which leaves the texts unformatted). -/
def pipelineModule (mod version : String) (regsRaw : List Reg)
    (mod_fields : List SpedField)
    (esh : String → String → String → String)
    (render : List (Nat × ClassData) → String)
    (fmt : String → Option String) :
    Option (String × String × String × String) :=
  let registers := mainRegisters mod regsRaw
  let ros := collect_register_children registers
  match genLoop mod version esh ros mod_fields none (List.enumFrom 0 ros) with
  | none => none
  | some out =>
    let views_xml :=
      "<?xml version=\"1.0\" encoding=\"UTF-8\"?>\n<odoo>" ++
      strJoin (([ViewChunk.rootMenu mod, .declAction mod, .declMenu mod] ++ out.views).map
        renderChunk) ++ "\n</odoo>"
    let security_csv := SECURITY_HEADER ++ out.security
    let concrete := HEADER ++ "\nimport textwrap\n\nfrom odoo import models\n" ++ out.concrete
    let structureText := get_structure mod esh ros
    let source := HEADER ++ "\n\"\"\"\n" ++ structureText ++ "\n\"\"\"\n\n" ++ IMPORTS ++ "\n" ++
      render out.classes
    let formatted :=
      match fmt source with
      | none => (source, concrete)
      | some s' =>
        match fmt concrete with
        | none => (s', concrete)
        | some c' => (s', c')
    some (formatted.1, formatted.2, views_xml, security_csv)

/-! ### Structure of the loop's outputs -/

theorem genLoop_processed (mod version : String) (esh : String → String → String → String)
    (allRegs : List RegOut) (mod_fields : List SpedField) :
    ∀ (l : List (Nat × RegOut)) (lb : Option Char) (out : GenOut),
      genLoop mod version esh allRegs mod_fields lb l = some out →
      out.classes.map Prod.fst = (processedIdx l).map Prod.fst ∧
      out.security = strJoin ((processedIdx l).map
        (fun p => securityUserRow mod p.2.reg.code ++ securityManagerRow mod p.2.reg.code)) ∧
      blocoCharsOf out.views =
        changes lb ((processedIdx l).map (fun p => pyFirst p.2.reg.code)) ∧
      regActionCodes out.views =
        ((processedIdx l).filter (fun p => p.2.reg.level = 2)).map (fun p => p.2.reg.code) ∧
      regMenuCodes out.views =
        ((processedIdx l).filter (fun p => p.2.reg.level = 2)).map (fun p => p.2.reg.code) ∧
      ∀ c ∈ out.views, isLoopChunk c = true := by
  intro l
  induction l with
  | nil =>
    intro lb out hout
    injection hout with h
    subst h
    exact ⟨rfl, rfl, rfl, rfl, rfl, by simp [GenOut.views]⟩
  | cons p rest ih =>
    intro lb out hout
    obtain ⟨i, ro⟩ := p
    unfold genLoop at hout
    by_cases hskip : (ro.reg.level = 0 ∨ ro.reg.level = 1) ∧ ro.reg.code ≠ "0000"
    · rw [if_pos hskip] at hout
      have h := ih lb out hout
      unfold processedIdx
      rw [if_pos hskip]
      exact h
    · rw [if_neg hskip] at hout
      by_cases h9 : pyFirst ro.reg.code = '9'
      · rw [if_pos h9] at hout
        injection hout with h
        subst h
        unfold processedIdx
        rw [if_neg hskip, if_pos h9]
        exact ⟨rfl, rfl, rfl, rfl, rfl, by simp [GenOut.views]⟩
      · rw [if_neg h9] at hout
        simp only [] at hout
        cases hfa : buildFieldAttrs
            (dedupFields (mod_fields.filter (fun x => x.register = ro.reg.code))) with
        | none => simp only [hfa] at hout; exact Option.noConfusion hout
        | some fc =>
          simp only [hfa] at hout
          cases hrec : genLoop mod version esh allRegs mod_fields
              (some (pyFirst ro.reg.code)) rest with
          | none => simp only [hrec] at hout; exact Option.noConfusion hout
          | some out' =>
            simp only [hrec] at hout
            injection hout with h
            subst h
            obtain ⟨ih1, ih2, ih3, ih4, ih5, ih6⟩ :=
              ih (some (pyFirst ro.reg.code)) out' hrec
            unfold processedIdx
            rw [if_neg hskip, if_neg h9]
            refine ⟨?_, ?_, ?_, ?_, ?_, ?_⟩
            · simp only [List.map_cons, ih1]
            · simp only [List.map_cons, strJoin, ih2]
            · show blocoCharsOf _ = changes lb (pyFirst ro.reg.code ::
                (processedIdx rest).map (fun p => pyFirst p.2.reg.code))
              simp only [blocoCharsOf, List.filterMap_append, changes]
              by_cases hbc : some (pyFirst ro.reg.code) ≠ lb
              · rw [if_pos hbc, if_pos hbc]
                by_cases hl2 : ro.reg.level = 2
                · rw [if_pos hl2]
                  simp only [List.filterMap_cons, List.filterMap_nil]
                  rw [← ih3]
                  rfl
                · rw [if_neg hl2]
                  simp only [List.filterMap_cons, List.filterMap_nil]
                  rw [← ih3]
                  rfl
              · rw [if_neg hbc, if_neg hbc]
                by_cases hl2 : ro.reg.level = 2
                · rw [if_pos hl2]
                  simp only [List.filterMap_cons, List.filterMap_nil]
                  rw [← ih3]
                  rfl
                · rw [if_neg hl2]
                  simp only [List.filterMap_cons, List.filterMap_nil]
                  rw [← ih3]
                  rfl
            · show regActionCodes _ = _
              simp only [regActionCodes, List.filterMap_append, List.filter_cons]
              by_cases hl2 : ro.reg.level = 2
              · rw [if_pos hl2]
                rw [if_pos (show decide (ro.reg.level = 2) = true from decide_eq_true hl2)]
                by_cases hbc : some (pyFirst ro.reg.code) ≠ lb
                · rw [if_pos hbc]
                  simp only [List.filterMap_cons, List.filterMap_nil, List.map_cons]
                  rw [← ih4]
                  rfl
                · rw [if_neg hbc]
                  simp only [List.filterMap_cons, List.filterMap_nil, List.map_cons]
                  rw [← ih4]
                  rfl
              · rw [if_neg hl2]
                rw [if_neg (show ¬ decide (ro.reg.level = 2) = true by simp [hl2])]
                by_cases hbc : some (pyFirst ro.reg.code) ≠ lb
                · rw [if_pos hbc]
                  simp only [List.filterMap_cons, List.filterMap_nil]
                  rw [← ih4]
                  rfl
                · rw [if_neg hbc]
                  simp only [List.filterMap_cons, List.filterMap_nil]
                  rw [← ih4]
                  rfl
            · show regMenuCodes _ = _
              simp only [regMenuCodes, List.filterMap_append, List.filter_cons]
              by_cases hl2 : ro.reg.level = 2
              · rw [if_pos hl2]
                rw [if_pos (show decide (ro.reg.level = 2) = true from decide_eq_true hl2)]
                by_cases hbc : some (pyFirst ro.reg.code) ≠ lb
                · rw [if_pos hbc]
                  simp only [List.filterMap_cons, List.filterMap_nil, List.map_cons]
                  rw [← ih5]
                  rfl
                · rw [if_neg hbc]
                  simp only [List.filterMap_cons, List.filterMap_nil, List.map_cons]
                  rw [← ih5]
                  rfl
              · rw [if_neg hl2]
                rw [if_neg (show ¬ decide (ro.reg.level = 2) = true by simp [hl2])]
                by_cases hbc : some (pyFirst ro.reg.code) ≠ lb
                · rw [if_pos hbc]
                  simp only [List.filterMap_cons, List.filterMap_nil]
                  rw [← ih5]
                  rfl
                · rw [if_neg hbc]
                  simp only [List.filterMap_cons, List.filterMap_nil]
                  rw [← ih5]
                  rfl
            · intro c hc
              rcases List.mem_append.mp hc with hc1 | hc3
              · rcases List.mem_append.mp hc1 with hcA | hcB
                · by_cases hbc : some (pyFirst ro.reg.code) ≠ lb
                  · rw [if_pos hbc] at hcA
                    simp only [List.mem_singleton] at hcA
                    subst hcA
                    rfl
                  · rw [if_neg hbc] at hcA
                    simp at hcA
                · by_cases hl2 : ro.reg.level = 2
                  · rw [if_pos hl2] at hcB
                    simp only [List.mem_cons, List.not_mem_nil, or_false] at hcB
                    rcases hcB with rfl | rfl
                    · rfl
                    · rfl
                  · rw [if_neg hl2] at hcB
                    simp at hcB
              · exact ih6 c hc3

theorem changes_subset : ∀ (cs : List Char) (lb : Option Char) (x : Char),
    x ∈ changes lb cs → x ∈ cs := by
  intro cs
  induction cs with
  | nil => intro lb x h; simp [changes] at h
  | cons c t ih =>
    intro lb x h
    unfold changes at h
    by_cases hc : some c ≠ lb
    · rw [if_pos hc] at h
      rcases List.mem_cons.mp h with rfl | h'
      · exact List.mem_cons_self _ _
      · exact List.mem_cons_of_mem _ (ih _ x h')
    · rw [if_neg hc] at h
      exact List.mem_cons_of_mem _ (ih _ x h)

theorem mem_changes : ∀ (cs : List Char) (lb : Option Char) (x : Char),
    x ∈ cs → x ∈ changes lb cs ∨ some x = lb := by
  intro cs
  induction cs with
  | nil => intro lb x h; simp at h
  | cons c t ih =>
    intro lb x h
    unfold changes
    rcases List.mem_cons.mp h with rfl | h'
    · by_cases hc : some x ≠ lb
      · rw [if_pos hc]; exact Or.inl (List.mem_cons_self _ _)
      · exact Or.inr (by simpa using hc)
    · rcases ih (some c) x h' with hin | heq
      · by_cases hc : some c ≠ lb
        · rw [if_pos hc]; exact Or.inl (List.mem_cons_of_mem _ hin)
        · rw [if_neg hc]; exact Or.inl hin
      · by_cases hc : some c ≠ lb
        · rw [if_pos hc]
          refine Or.inl ?_
          have : x = c := by simpa using heq
          subst this
          exact List.mem_cons_self _ _
        · rw [if_neg hc]
          push_neg at hc
          exact Or.inr (heq.trans hc)

/-- `collect_register_children` never changes the underlying register row
of any entry (the writes only touch the hierarchy keys). -/
theorem collect_register_children_reg (regs : List Reg)
    (hcodes : regs.Pairwise (fun a b => a.code ≠ b.code)) :
    ((collect_register_children regs).length = regs.length) ∧
    ∀ j, j < regs.length →
      ((collect_register_children regs).getD j default).reg = regs.getD j default := by
  constructor
  · rw [← stateAt_full]; exact stateAt_length regs regs.length
  · intro j hj
    rw [← stateAt_full]
    exact (stateAt_inv regs hcodes regs.length (le_refl _) j hj).1

/-- C5: for each module, the generated access-control CSV is the fixed
header row followed, in register order, by exactly two rows per generated
register: an `access_user` row granting only `perm_read` (1,0,0,0) to
`l10n_br_fiscal.group_user` and an `access_manager` row granting all four
permissions (1,1,1,1) to `l10n_br_fiscal.group_manager`, both referencing
`model_l10n_br_sped_{module}_{register code lowercased}` (the row texts
are `securityUserRow` and `securityManagerRow`). -/
theorem security_csv_spec (mod version : String) (regsRaw : List Reg)
    (mod_fields : List SpedField) (esh : String → String → String → String)
    (render : List (Nat × ClassData) → String) (fmt : String → Option String)
    (r : String × String × String × String)
    (hout : pipelineModule mod version regsRaw mod_fields esh render fmt = some r) :
    r.2.2.2 = SECURITY_HEADER ++
      strJoin ((processedIdx (List.enumFrom 0
          (collect_register_children (mainRegisters mod regsRaw)))).map
        (fun p => securityUserRow mod p.2.reg.code ++ securityManagerRow mod p.2.reg.code)) := by
  unfold pipelineModule at hout
  cases hgen : genLoop mod version esh
      (collect_register_children (mainRegisters mod regsRaw)) mod_fields none
      (List.enumFrom 0 (collect_register_children (mainRegisters mod regsRaw))) with
  | none => simp only [hgen] at hout; exact Option.noConfusion hout
  | some out =>
    simp only [hgen] at hout
    injection hout with h
    subst h
    show SECURITY_HEADER ++ out.security = _
    rw [(genLoop_processed mod version esh _ mod_fields _ none out hgen).2.1]

def c5Regs : List Reg :=
  [{ code := "0000", level := 0, card := "" },
   { code := "A100", level := 2, card := "1:N" }]

def c5Esh : String → String → String → String := fun _ _ _ => ""

def c5Render : List (Nat × ClassData) → String := fun _ => ""

def c5Fmt : String → Option String := fun _ => none

def c5Run : String × String × String × String :=
  (pipelineModule "efd" "v1" c5Regs [] c5Esh c5Render c5Fmt).getD ("", "", "", "")

theorem security_csv_spec_witness :
    pipelineModule "efd" "v1" c5Regs [] c5Esh c5Render c5Fmt = some c5Run ∧
    c5Run.2.2.2 = SECURITY_HEADER ++
      strJoin ((processedIdx (List.enumFrom 0
          (collect_register_children (mainRegisters "efd" c5Regs)))).map
        (fun p => securityUserRow "efd" p.2.reg.code ++ securityManagerRow "efd" p.2.reg.code)) :=
  ⟨by rfl, security_csv_spec "efd" "v1" c5Regs [] c5Esh c5Render c5Fmt c5Run (by rfl)⟩

/-- C6: for each module the views XML consists of one root menuitem and
one declaration `act_window` targeting `l10n_br_sped.{module}.0000`
(chunks emitted before the loop, never inside it); the loop emits a
`BLOCO X` menuitem whenever the bloco character changes, which yields one
per distinct leading code character of the processed registers whenever
the change sequence carries no repeats (as in sorted order); and one
`act_window` plus one menuitem exactly for each processed register of
level 2. -/
theorem views_spec (mod version : String) (esh : String → String → String → String)
    (allRegs : List RegOut) (mod_fields : List SpedField) (out : GenOut)
    (hout : genLoop mod version esh allRegs mod_fields none
      (List.enumFrom 0 allRegs) = some out) :
    (([ViewChunk.rootMenu mod, ViewChunk.declAction mod, ViewChunk.declMenu mod] ++
        out.views).count (ViewChunk.rootMenu mod) = 1) ∧
    (([ViewChunk.rootMenu mod, ViewChunk.declAction mod, ViewChunk.declMenu mod] ++
        out.views).count (ViewChunk.declAction mod) = 1) ∧
    blocoCharsOf out.views =
      changes none ((processedIdx (List.enumFrom 0 allRegs)).map
        (fun p => pyFirst p.2.reg.code)) ∧
    ((changes none ((processedIdx (List.enumFrom 0 allRegs)).map
        (fun p => pyFirst p.2.reg.code))).Nodup →
      (blocoCharsOf out.views).Nodup ∧
      ∀ c, c ∈ blocoCharsOf out.views ↔
        c ∈ (processedIdx (List.enumFrom 0 allRegs)).map (fun p => pyFirst p.2.reg.code)) ∧
    regActionCodes out.views =
      ((processedIdx (List.enumFrom 0 allRegs)).filter
        (fun p => p.2.reg.level = 2)).map (fun p => p.2.reg.code) ∧
    regMenuCodes out.views =
      ((processedIdx (List.enumFrom 0 allRegs)).filter
        (fun p => p.2.reg.level = 2)).map (fun p => p.2.reg.code) := by
  obtain ⟨h1, h2, h3, h4, h5, h6⟩ :=
    genLoop_processed mod version esh allRegs mod_fields _ none out hout
  have hroot0 : ViewChunk.rootMenu mod ∉ out.views := by
    intro hmem
    have := h6 _ hmem
    simp [isLoopChunk] at this
  have hdecl0 : ViewChunk.declAction mod ∉ out.views := by
    intro hmem
    have := h6 _ hmem
    simp [isLoopChunk] at this
  refine ⟨?_, ?_, h3, ?_, h4, h5⟩
  · rw [List.count_append, List.count_eq_zero.mpr hroot0]
    simp
  · rw [List.count_append, List.count_eq_zero.mpr hdecl0]
    simp
  · intro hnd
    constructor
    · rw [h3]; exact hnd
    · intro c
      rw [h3]
      constructor
      · exact changes_subset _ none c
      · intro hc
        rcases mem_changes _ none c hc with h | h
        · exact h
        · exact absurd h (by simp)

def c6Ros : List RegOut :=
  collect_register_children [{ code := "A100", level := 2, card := "1:N" }]

def c6Out : GenOut :=
  (genLoop "efd" "v1" c5Esh c6Ros [] none (List.enumFrom 0 c6Ros)).getD {}

theorem views_spec_witness :
    genLoop "efd" "v1" c5Esh c6Ros [] none (List.enumFrom 0 c6Ros) = some c6Out ∧
    ((([ViewChunk.rootMenu "efd", ViewChunk.declAction "efd", ViewChunk.declMenu "efd"] ++
        c6Out.views).count (ViewChunk.rootMenu "efd") = 1) ∧
     (([ViewChunk.rootMenu "efd", ViewChunk.declAction "efd", ViewChunk.declMenu "efd"] ++
        c6Out.views).count (ViewChunk.declAction "efd") = 1) ∧
     blocoCharsOf c6Out.views =
       changes none ((processedIdx (List.enumFrom 0 c6Ros)).map
         (fun p => pyFirst p.2.reg.code)) ∧
     ((changes none ((processedIdx (List.enumFrom 0 c6Ros)).map
         (fun p => pyFirst p.2.reg.code))).Nodup →
       (blocoCharsOf c6Out.views).Nodup ∧
       ∀ c, c ∈ blocoCharsOf c6Out.views ↔
         c ∈ (processedIdx (List.enumFrom 0 c6Ros)).map (fun p => pyFirst p.2.reg.code)) ∧
     regActionCodes c6Out.views =
       ((processedIdx (List.enumFrom 0 c6Ros)).filter
         (fun p => p.2.reg.level = 2)).map (fun p => p.2.reg.code) ∧
     regMenuCodes c6Out.views =
       ((processedIdx (List.enumFrom 0 c6Ros)).filter
         (fun p => p.2.reg.level = 2)).map (fun p => p.2.reg.code)) :=
  ⟨by rfl, views_spec "efd" "v1" c5Esh c6Ros [] c6Out (by rfl)⟩

theorem processedIdx_sublist : ∀ l : List (Nat × RegOut), List.Sublist (processedIdx l) l := by
  intro l
  induction l with
  | nil => simp [processedIdx]
  | cons p rest ih =>
    obtain ⟨i, ro⟩ := p
    unfold processedIdx
    by_cases hskip : (ro.reg.level = 0 ∨ ro.reg.level = 1) ∧ ro.reg.code ≠ "0000"
    · rw [if_pos hskip]
      exact ih.cons _
    · rw [if_neg hskip]
      by_cases h9 : pyFirst ro.reg.code = '9'
      · rw [if_pos h9]
        exact List.nil_sublist _
      · rw [if_neg h9]
        exact ih.cons₂ _

theorem mem_enumFrom_self (l : List α) (d : α) :
    ∀ (n k : Nat), k < l.length → (n + k, l.getD k d) ∈ List.enumFrom n l := by
  induction l with
  | nil => intro n k hk; simp at hk
  | cons a t ih =>
    intro n k hk
    cases k with
    | zero => simp [List.enumFrom]
    | succ k =>
      have := ih (n + 1) k (by simpa using hk)
      simp only [List.enumFrom, List.mem_cons]
      right
      have harith : n + (k + 1) = (n + 1) + k := by omega
      rw [harith, List.getD_cons_succ]
      exact this

theorem mem_processedIdx_iff :
    ∀ (l : List (Nat × RegOut)) (i : Nat) (ro : RegOut),
      l.Pairwise (fun p q => p.1 < q.1) →
      (i, ro) ∈ l →
      (∀ q ∈ l, q.1 ≤ i → pyFirst q.2.reg.code ≠ '9') →
      (i ∈ (processedIdx l).map Prod.fst ↔
        ¬((ro.reg.level = 0 ∨ ro.reg.level = 1) ∧ ro.reg.code ≠ "0000")) := by
  intro l
  induction l with
  | nil => intro i ro _ hmem _; simp at hmem
  | cons p rest ih =>
    intro i ro hpw hmem h9
    have hpw' := List.pairwise_cons.mp hpw
    rcases List.mem_cons.mp hmem with heq | htail
    · subst heq
      have h9p : pyFirst ro.reg.code ≠ '9' :=
        h9 (i, ro) (List.mem_cons_self _ _) (le_refl i)
      unfold processedIdx
      by_cases hskip : (ro.reg.level = 0 ∨ ro.reg.level = 1) ∧ ro.reg.code ≠ "0000"
      · rw [if_pos hskip]
        constructor
        · intro hmem'
          obtain ⟨q, hq, hq1⟩ := List.mem_map.mp hmem'
          have hqrest : q ∈ rest := (processedIdx_sublist rest).subset hq
          have := hpw'.1 q hqrest
          omega
        · intro hc
          exact absurd hskip hc
      · rw [if_neg hskip, if_neg h9p]
        simp only [List.map_cons]
        exact ⟨fun _ => hskip, fun _ => List.mem_cons_self _ _⟩
    · obtain ⟨j, q⟩ := p
      have hpi : j < i := hpw'.1 (i, ro) htail
      have h9p : pyFirst q.reg.code ≠ '9' :=
        h9 (j, q) (List.mem_cons_self _ _) (by omega)
      have hihyp := ih i ro hpw'.2 htail
        (fun q' hq' hle => h9 q' (List.mem_cons_of_mem _ hq') hle)
      unfold processedIdx
      by_cases hskip : (q.reg.level = 0 ∨ q.reg.level = 1) ∧ q.reg.code ≠ "0000"
      · rw [if_pos hskip]
        exact hihyp
      · rw [if_neg hskip, if_neg h9p]
        simp only [List.map_cons]
        rw [List.mem_cons]
        constructor
        · rintro (rfl | h)
          · omega
          · exact hihyp.mp h
        · intro hc
          exact Or.inr (hihyp.mpr hc)

/-- C9: among the registers surviving the initial filter (`C`-coded
registers dropped for `ecd`/`ecf`) and preceding the first bloco-9
register, `main` emits an Odoo model class and the two security CSV rows
for a register iff its level is greater than 1 or its code is `0000`
(levels extracted from the layouts are non-negative; register codes are
pairwise distinct). -/
theorem classes_emitted_iff (mod version : String) (regsRaw : List Reg)
    (mod_fields : List SpedField) (esh : String → String → String → String) (out : GenOut)
    (hcodes : (mainRegisters mod regsRaw).Pairwise (fun a b => a.code ≠ b.code))
    (hout : genLoop mod version esh (collect_register_children (mainRegisters mod regsRaw))
      mod_fields none
      (List.enumFrom 0 (collect_register_children (mainRegisters mod regsRaw))) = some out)
    (i : Nat) (hi : i < (mainRegisters mod regsRaw).length)
    (hlev : 0 ≤ ((mainRegisters mod regsRaw).getD i default).level)
    (h9 : ∀ k, k ≤ i → pyFirst (((mainRegisters mod regsRaw).getD k default).code) ≠ '9') :
    (i ∈ out.classes.map Prod.fst ↔
      (1 < ((mainRegisters mod regsRaw).getD i default).level ∨
       ((mainRegisters mod regsRaw).getD i default).code = "0000")) ∧
    out.security = strJoin ((processedIdx (List.enumFrom 0
        (collect_register_children (mainRegisters mod regsRaw)))).map
      (fun p => securityUserRow mod p.2.reg.code ++ securityManagerRow mod p.2.reg.code)) := by
  obtain ⟨hlen, hreg⟩ := collect_register_children_reg (mainRegisters mod regsRaw) hcodes
  obtain ⟨h1, h2, _, _, _, _⟩ :=
    genLoop_processed mod version esh _ mod_fields _ none out hout
  refine ⟨?_, h2⟩
  rw [h1]
  have hi' : i < (collect_register_children (mainRegisters mod regsRaw)).length := by
    rw [hlen]; exact hi
  have hmem : (i, (collect_register_children (mainRegisters mod regsRaw)).getD i default) ∈
      List.enumFrom 0 (collect_register_children (mainRegisters mod regsRaw)) := by
    have := mem_enumFrom_self (collect_register_children (mainRegisters mod regsRaw))
      default 0 i hi'
    simpa using this
  rw [mem_processedIdx_iff _ i _ (enumFrom_pairwise_fst _ 0) hmem ?h9all]
  case h9all =>
    intro q hq hle
    obtain ⟨_, hqlt, hqeq⟩ := mem_enumFrom_eq _ default 0 q hq
    have hqlen : q.1 < (mainRegisters mod regsRaw).length := by rw [← hlen]; omega
    rw [hqeq, Nat.sub_zero, hreg q.1 hqlen]
    exact h9 q.1 hle
  rw [hreg i hi]
  constructor
  · intro h
    by_cases hc : ((mainRegisters mod regsRaw).getD i default).code = "0000"
    · exact Or.inr hc
    · left
      by_contra hlt
      exact h ⟨by omega, hc⟩
  · rintro (h | h)
    · rintro ⟨hl, _⟩
      rcases hl with hl | hl <;> omega
    · rintro ⟨_, hc⟩
      exact hc h

def c9Regs : List Reg :=
  [{ code := "0000", level := 0, card := "" },
   { code := "A100", level := 2, card := "1:N" }]

def c9Out : GenOut :=
  (genLoop "efd" "v1" c5Esh (collect_register_children (mainRegisters "efd" c9Regs)) []
    none (List.enumFrom 0 (collect_register_children (mainRegisters "efd" c9Regs)))).getD {}

theorem classes_emitted_iff_witness :
    genLoop "efd" "v1" c5Esh (collect_register_children (mainRegisters "efd" c9Regs)) []
      none (List.enumFrom 0 (collect_register_children (mainRegisters "efd" c9Regs))) =
      some c9Out ∧
    ((1 ∈ c9Out.classes.map Prod.fst ↔
       (1 < ((mainRegisters "efd" c9Regs).getD 1 default).level ∨
        ((mainRegisters "efd" c9Regs).getD 1 default).code = "0000")) ∧
     c9Out.security = strJoin ((processedIdx (List.enumFrom 0
         (collect_register_children (mainRegisters "efd" c9Regs)))).map
       (fun p => securityUserRow "efd" p.2.reg.code ++ securityManagerRow "efd" p.2.reg.code))) :=
  ⟨by rfl,
   classes_emitted_iff "efd" "v1" c9Regs [] c5Esh c9Out (by decide) (by rfl) 1
     (by decide) (by decide) (by decide)⟩

/-! ### Ordering facts about the alphanumeric sequence key (C8) -/

theorem pyStrLt_asymm : ∀ x y : List Char, pyStrLt x y = true → pyStrLt y x = false := by
  intro x
  induction x with
  | nil =>
    intro y h
    cases y with
    | nil => simp [pyStrLt] at h
    | cons b bs => simp [pyStrLt]
  | cons a as ih =>
    intro y h
    cases y with
    | nil => simp [pyStrLt] at h
    | cons b bs =>
      unfold pyStrLt at h ⊢
      by_cases hab : a < b
      · rw [if_pos hab] at h
        rw [if_neg (lt_asymm hab), if_pos hab]
      · rw [if_neg hab] at h
        by_cases hba : b < a
        · rw [if_pos hba] at h
          exact absurd h (by simp)
        · rw [if_neg hba] at h
          rw [if_neg hba, if_neg hab]
          exact ih bs h

theorem pyStrLt_trans : ∀ x y z : List Char,
    pyStrLt x y = true → pyStrLt y z = true → pyStrLt x z = true := by
  intro x
  induction x with
  | nil =>
    intro y z hxy hyz
    cases y with
    | nil => simp [pyStrLt] at hxy
    | cons b bs =>
      cases z with
      | nil => simp [pyStrLt] at hyz
      | cons c cs => simp [pyStrLt]
  | cons a as ih =>
    intro y z hxy hyz
    cases y with
    | nil => simp [pyStrLt] at hxy
    | cons b bs =>
      cases z with
      | nil => simp [pyStrLt] at hyz
      | cons c cs =>
        unfold pyStrLt at hxy hyz ⊢
        by_cases hab : a < b
        · rw [if_pos hab] at hxy
          by_cases hbc : b < c
          · rw [if_pos (lt_trans hab hbc)]
          · rw [if_neg hbc] at hyz
            by_cases hcb : c < b
            · rw [if_pos hcb] at hyz
              exact absurd hyz (by simp)
            · have hbceq : b = c := by
                rcases lt_trichotomy b c with h | h | h
                · exact absurd h hbc
                · exact h
                · exact absurd h hcb
              rw [if_pos (hbceq ▸ hab)]
        · rw [if_neg hab] at hxy
          by_cases hba : b < a
          · rw [if_pos hba] at hxy
            exact absurd hxy (by simp)
          · rw [if_neg hba] at hxy
            have habeq : a = b := by
              rcases lt_trichotomy a b with h | h | h
              · exact absurd h hab
              · exact h
              · exact absurd h hba
            subst habeq
            by_cases hac : a < c
            · rw [if_pos hac]
            · rw [if_neg hac] at hyz ⊢
              by_cases hca : c < a
              · rw [if_pos hca] at hyz
                exact absurd hyz (by simp)
              · rw [if_neg hca] at hyz ⊢
                exact ih bs cs hxy hyz

theorem pyStrLt_trichotomy : ∀ x y : List Char,
    pyStrLt x y = true ∨ pyStrLt y x = true ∨ x = y := by
  intro x
  induction x with
  | nil =>
    intro y
    cases y with
    | nil => exact Or.inr (Or.inr rfl)
    | cons b bs => exact Or.inl (by simp [pyStrLt])
  | cons a as ih =>
    intro y
    cases y with
    | nil => exact Or.inr (Or.inl (by simp [pyStrLt]))
    | cons b bs =>
      rcases lt_trichotomy a b with h | h | h
      · exact Or.inl (by unfold pyStrLt; rw [if_pos h])
      · subst h
        rcases ih bs with h' | h' | h'
        · refine Or.inl ?_
          unfold pyStrLt
          rw [if_neg (lt_irrefl a), if_neg (lt_irrefl a)]
          exact h'
        · refine Or.inr (Or.inl ?_)
          unfold pyStrLt
          rw [if_neg (lt_irrefl a), if_neg (lt_irrefl a)]
          exact h'
        · exact Or.inr (Or.inr (by rw [h']))
      · refine Or.inr (Or.inl ?_)
        unfold pyStrLt
        rw [if_pos h]

/-- C8 part (a): the key of a `9`-coded register is lexicographically above
the key of every other register. -/
theorem alphanum_nine_after (c1 c2 : String)
    (h9 : pyFirst c1 = '9') (hn9 : pyFirst c2 ≠ '9') :
    pyStrLt (get_alphanum_sequence c2).data (get_alphanum_sequence c1).data = true := by
  have hk1 : get_alphanum_sequence c1 = "3" ++ c1 := by
    show (if pyFirst c1 = '0' then "0" ++ c1
          else if pyFirst c1 = '1' then "2" ++ c1
          else if pyFirst c1 = '9' then "3" ++ c1
          else "1" ++ c1) = "3" ++ c1
    rw [if_neg (by rw [h9]; decide), if_neg (by rw [h9]; decide), if_pos h9]
  have hstep : ∀ d : Char, d < '3' →
      pyStrLt (d :: c2.data) ('3' :: c1.data) = true := by
    intro d hd
    unfold pyStrLt
    rw [if_pos hd]
  by_cases h0 : pyFirst c2 = '0'
  · have hk2 : get_alphanum_sequence c2 = "0" ++ c2 := by
      show (if pyFirst c2 = '0' then "0" ++ c2
            else if pyFirst c2 = '1' then "2" ++ c2
            else if pyFirst c2 = '9' then "3" ++ c2
            else "1" ++ c2) = "0" ++ c2
      rw [if_pos h0]
    rw [hk1, hk2]
    exact hstep '0' (by decide)
  · by_cases h1 : pyFirst c2 = '1'
    · have hk2 : get_alphanum_sequence c2 = "2" ++ c2 := by
        show (if pyFirst c2 = '0' then "0" ++ c2
              else if pyFirst c2 = '1' then "2" ++ c2
              else if pyFirst c2 = '9' then "3" ++ c2
              else "1" ++ c2) = "2" ++ c2
        rw [if_neg h0, if_pos h1]
      rw [hk1, hk2]
      exact hstep '2' (by decide)
    · have hk2 : get_alphanum_sequence c2 = "1" ++ c2 := by
        show (if pyFirst c2 = '0' then "0" ++ c2
              else if pyFirst c2 = '1' then "2" ++ c2
              else if pyFirst c2 = '9' then "3" ++ c2
              else "1" ++ c2) = "1" ++ c2
        rw [if_neg h0, if_neg h1, if_neg hn9]
      rw [hk1, hk2]
      exact hstep '1' (by decide)

theorem mem_insertLe (le : Reg → Reg → Bool) (r : Reg) :
    ∀ (l : List Reg) (a : Reg), a ∈ insertLe le r l → a = r ∨ a ∈ l := by
  intro l
  induction l with
  | nil => intro a h; simp [insertLe] at h; exact Or.inl h
  | cons x xs ih =>
    intro a h
    unfold insertLe at h
    by_cases hc : le x r
    · rw [if_pos hc] at h
      rcases List.mem_cons.mp h with rfl | h'
      · exact Or.inr (List.mem_cons_self _ _)
      · rcases ih a h' with h'' | h''
        · exact Or.inl h''
        · exact Or.inr (List.mem_cons_of_mem _ h'')
    · rw [if_neg hc] at h
      rcases List.mem_cons.mp h with rfl | h'
      · exact Or.inl rfl
      · exact Or.inr h'

theorem pairwise_insertLe (le : Reg → Reg → Bool)
    (htot : ∀ a b, le a b = true ∨ le b a = true)
    (htrans : ∀ a b c, le a b = true → le b c = true → le a c = true)
    (r : Reg) :
    ∀ l : List Reg, l.Pairwise (fun a b => le a b = true) →
      (insertLe le r l).Pairwise (fun a b => le a b = true) := by
  intro l
  induction l with
  | nil => intro _; simp [insertLe]
  | cons x xs ih =>
    intro hpw
    have hpw' := List.pairwise_cons.mp hpw
    unfold insertLe
    by_cases hc : le x r
    · rw [if_pos hc]
      refine List.pairwise_cons.mpr ⟨?_, ih hpw'.2⟩
      intro a ha
      rcases mem_insertLe le r xs a ha with rfl | ha'
      · exact hc
      · exact hpw'.1 a ha'
    · rw [if_neg hc]
      have hrx : le r x = true := by
        rcases htot x r with h | h
        · exact absurd h hc
        · exact h
      refine List.pairwise_cons.mpr ⟨?_, hpw⟩
      intro a ha
      rcases List.mem_cons.mp ha with rfl | ha'
      · exact hrx
      · exact htrans r x a hrx (hpw'.1 a ha')

theorem pairwise_sortByLe (le : Reg → Reg → Bool)
    (htot : ∀ a b, le a b = true ∨ le b a = true)
    (htrans : ∀ a b c, le a b = true → le b c = true → le a c = true) :
    ∀ l : List Reg, (sortByLe le l).Pairwise (fun a b => le a b = true) := by
  intro l
  induction l with
  | nil => simp [sortByLe]
  | cons x xs ih =>
    unfold sortByLe
    exact pairwise_insertLe le htot htrans x _ ih

/-- The comparison used by `mainRegisters`. -/
def mainLe (a b : Reg) : Bool :=
  !pyStrLt (get_alphanum_sequence b.code).data (get_alphanum_sequence a.code).data

theorem mainLe_total : ∀ a b, mainLe a b = true ∨ mainLe b a = true := by
  intro a b
  unfold mainLe
  by_cases h : pyStrLt (get_alphanum_sequence b.code).data
      (get_alphanum_sequence a.code).data = true
  · right
    rw [pyStrLt_asymm _ _ h]
    rfl
  · left
    rw [Bool.not_eq_true']
    cases hb : pyStrLt (get_alphanum_sequence b.code).data (get_alphanum_sequence a.code).data
    · rfl
    · exact absurd hb h

theorem mainLe_trans : ∀ a b c, mainLe a b = true → mainLe b c = true → mainLe a c = true := by
  intro a b c hab hbc
  unfold mainLe at hab hbc ⊢
  rw [Bool.not_eq_true'] at hab hbc ⊢
  by_contra hca
  rw [Bool.not_eq_false] at hca
  rcases pyStrLt_trichotomy (get_alphanum_sequence b.code).data
      (get_alphanum_sequence a.code).data with h | h | h
  · rw [h] at hab; cases hab
  · have := pyStrLt_trans _ _ _ hca h
    rw [this] at hbc; cases hbc
  · rw [← h] at hca
    rw [hca] at hbc; cases hbc

theorem pairwise_mainRegisters (mod : String) (regsRaw : List Reg) :
    (mainRegisters mod regsRaw).Pairwise (fun a b => mainLe a b = true) := by
  unfold mainRegisters
  exact pairwise_sortByLe mainLe mainLe_total mainLe_trans _

theorem pairwise_mainRegisters_nine (mod : String) (regsRaw : List Reg) :
    (mainRegisters mod regsRaw).Pairwise
      (fun a b => pyFirst a.code = '9' → pyFirst b.code = '9') := by
  refine (pairwise_mainRegisters mod regsRaw).imp ?_
  intro a b hab h9a
  by_contra h9b
  have := alphanum_nine_after a.code b.code h9a h9b
  unfold mainLe at hab
  rw [this] at hab
  cases hab

theorem collect_map_reg (regs : List Reg)
    (hcodes : regs.Pairwise (fun a b => a.code ≠ b.code)) :
    (collect_register_children regs).map (fun ro => ro.reg) = regs := by
  obtain ⟨hlen, hreg⟩ := collect_register_children_reg regs hcodes
  apply List.ext_getElem
  · rw [List.length_map, hlen]
  · intro j h1 h2
    rw [List.getElem_map]
    have := hreg j h2
    rw [List.getD_eq_getElem, List.getD_eq_getElem] at this
    exact this

theorem mem_enumFrom_snd {α : Type} :
    ∀ (l : List α) (n : Nat) (p : Nat × α), p ∈ List.enumFrom n l → p.2 ∈ l := by
  intro l
  induction l with
  | nil => intro n p h; simp [List.enumFrom] at h
  | cons a t ih =>
    intro n p h
    simp only [List.enumFrom, List.mem_cons] at h
    rcases h with rfl | h
    · exact List.mem_cons_self _ _
    · exact List.mem_cons_of_mem _ (ih (n + 1) p h)

theorem enumFrom_pairwise_snd {α : Type} (T : α → α → Prop) :
    ∀ (l : List α) (n : Nat), l.Pairwise T →
      (List.enumFrom n l).Pairwise (fun p q => T p.2 q.2) := by
  intro l
  induction l with
  | nil => intro n _; simp [List.enumFrom]
  | cons a t ih =>
    intro n hpw
    have hpw' := List.pairwise_cons.mp hpw
    simp only [List.enumFrom]
    refine List.pairwise_cons.mpr ⟨?_, ih (n + 1) hpw'.2⟩
    intro q hq
    exact hpw'.1 q.2 (mem_enumFrom_snd t (n + 1) q hq)

theorem processedIdx_eq_filter :
    ∀ l : List (Nat × RegOut),
      l.Pairwise (fun p q => pyFirst p.2.reg.code = '9' → pyFirst q.2.reg.code = '9') →
      processedIdx l = l.filter (fun p => decide (pyFirst p.2.reg.code ≠ '9' ∧
        ¬((p.2.reg.level = 0 ∨ p.2.reg.level = 1) ∧ p.2.reg.code ≠ "0000"))) := by
  intro l
  induction l with
  | nil => intro _; rfl
  | cons p rest ih =>
    intro hpw
    have hpw' := List.pairwise_cons.mp hpw
    obtain ⟨i, ro⟩ := p
    unfold processedIdx
    by_cases hskip : (ro.reg.level = 0 ∨ ro.reg.level = 1) ∧ ro.reg.code ≠ "0000"
    · rw [if_pos hskip]
      rw [List.filter_cons, if_neg ?hp1]
      case hp1 => simp only [decide_eq_true_eq]; intro hcon; exact hcon.2 hskip
      exact ih hpw'.2
    · rw [if_neg hskip]
      by_cases h9 : pyFirst ro.reg.code = '9'
      · rw [if_pos h9]
        rw [List.filter_cons, if_neg ?hp2]
        case hp2 => simp [h9]
        symm
        rw [List.filter_eq_nil_iff]
        intro q hq
        have h9q : pyFirst q.2.reg.code = '9' := hpw'.1 q hq h9
        simp [h9q]
      · rw [if_neg h9]
        rw [List.filter_cons, if_pos ?hp3]
        case hp3 => simp only [decide_eq_true_eq]; exact ⟨h9, hskip⟩
        rw [ih hpw'.2]

/-- C8: `_get_alphanum_sequence` prefixes bloco-0 codes with `0`, letter
blocos with `1`, bloco 1 with `2` and bloco 9 with `3`, so sorting by this
key places every register whose code starts with `9` after all other
registers; hence the `break` at the first `9`-coded register excludes from
model generation exactly the bloco-9 registers (and the ones the level
filter skips) and no others: the emitted classes are exactly the filtered
list (register codes assumed pairwise distinct). -/
theorem alphanum_break_spec (mod version : String) (regsRaw : List Reg)
    (mod_fields : List SpedField) (esh : String → String → String → String) (out : GenOut)
    (hcodes : (mainRegisters mod regsRaw).Pairwise (fun a b => a.code ≠ b.code))
    (hout : genLoop mod version esh (collect_register_children (mainRegisters mod regsRaw))
      mod_fields none
      (List.enumFrom 0 (collect_register_children (mainRegisters mod regsRaw))) = some out) :
    (mainRegisters mod regsRaw).Pairwise
      (fun a b => pyFirst a.code = '9' → pyFirst b.code = '9') ∧
    out.classes.map Prod.fst =
      ((List.enumFrom 0 (collect_register_children (mainRegisters mod regsRaw))).filter
        (fun p => decide (pyFirst p.2.reg.code ≠ '9' ∧
          ¬((p.2.reg.level = 0 ∨ p.2.reg.level = 1) ∧ p.2.reg.code ≠ "0000")))).map
        Prod.fst := by
  refine ⟨pairwise_mainRegisters_nine mod regsRaw, ?_⟩
  obtain ⟨h1, _, _, _, _, _⟩ :=
    genLoop_processed mod version esh _ mod_fields _ none out hout
  rw [h1, processedIdx_eq_filter _ ?hp]
  case hp =>
    have hnine := pairwise_mainRegisters_nine mod regsRaw
    rw [← collect_map_reg (mainRegisters mod regsRaw) hcodes] at hnine
    exact enumFrom_pairwise_snd _ _ 0 (List.pairwise_map.mp hnine)

def c8Regs : List Reg :=
  [{ code := "9900", level := 2, card := "1:N" },
   { code := "A100", level := 2, card := "1:N" },
   { code := "0000", level := 0, card := "" }]

def c8Out : GenOut :=
  (genLoop "efd" "v1" c5Esh (collect_register_children (mainRegisters "efd" c8Regs)) []
    none (List.enumFrom 0 (collect_register_children (mainRegisters "efd" c8Regs)))).getD {}

theorem alphanum_break_spec_witness :
    genLoop "efd" "v1" c5Esh (collect_register_children (mainRegisters "efd" c8Regs)) []
      none (List.enumFrom 0 (collect_register_children (mainRegisters "efd" c8Regs))) =
      some c8Out ∧
    ((mainRegisters "efd" c8Regs).Pairwise
       (fun a b => pyFirst a.code = '9' → pyFirst b.code = '9') ∧
     c8Out.classes.map Prod.fst =
       ((List.enumFrom 0 (collect_register_children (mainRegisters "efd" c8Regs))).filter
         (fun p => decide (pyFirst p.2.reg.code ≠ '9' ∧
           ¬((p.2.reg.level = 0 ∨ p.2.reg.level = 1) ∧ p.2.reg.code ≠ "0000")))).map
         Prod.fst) :=
  ⟨by rfl,
   alphanum_break_spec "efd" "v1" c8Regs [] c5Esh c8Out (by decide) (by rfl)⟩

/-- C7: for a fixed module, version and fixed results of the extraction
collaborators (`get_registers`, `get_fields`, `get_version`, the string
helper, the renderer and the formatter), the generation pipeline is
deterministic: any two successful runs produce identical model source
text, concrete-model source text, views XML and security CSV.  The
pipeline is a single sequential pass with no concurrency and no other
input, which the embedding reflects by `pipelineModule` being a function
of exactly these arguments. -/
theorem pipeline_deterministic (mod version : String) (regsRaw : List Reg)
    (mod_fields : List SpedField) (esh : String → String → String → String)
    (render : List (Nat × ClassData) → String) (fmt : String → Option String)
    (r1 r2 : String × String × String × String)
    (h1 : pipelineModule mod version regsRaw mod_fields esh render fmt = some r1)
    (h2 : pipelineModule mod version regsRaw mod_fields esh render fmt = some r2) :
    r1 = r2 :=
  Option.some.inj (h1.symm.trans h2)

def c7Run : String × String × String × String :=
  (pipelineModule "efd" "v1" c8Regs [] c5Esh c5Render c5Fmt).getD ("", "", "", "")

theorem pipeline_deterministic_witness :
    pipelineModule "efd" "v1" c8Regs [] c5Esh c5Render c5Fmt = some c7Run ∧ c7Run = c7Run :=
  ⟨by rfl,
   pipeline_deterministic "efd" "v1" c8Regs [] c5Esh c5Render c5Fmt c7Run c7Run
     (by rfl) (by rfl)⟩
